import Mathlib

/-!
Verification of the block synchronization engine of
`rs/rosetta-api/ledger_client_core/src/ledger_blocks_sync.rs`.

The synchronizer code (`LedgerBlocksSynchronizer::new`, `verify_store`,
`verify_tip_of_chain`, `sync_blocks`, `sync_range_of_blocks`) is embedded
directly from the source.  Its collaborators (`Blocks`/the block store from
`crate::store`, `verify_block_hash` from `crate::certification`, block
hashing/decoding from `ic_ledger_core`) are not part of the sources; they are
modelled from the spec's description of their contracts and marked as such in
their doc comments.

Remote calls and cancellation polls are recorded in an event trace so that
properties such as "no batch fetch is performed" or "the flag is polled once
per iteration" can be stated about a run.
-/

set_option maxHeartbeats 1000000

namespace LedgerSync

/-- Raw certification blob (`Vec<u8>` in the source). -/
abbrev Cert := List Nat

/-- A decoded ledger block.  Of the decoded fields only `parent_hash` is ever
consulted by the synchronizer (`block.parent_hash` in `sync_range_of_blocks`),
so the embedding keeps just that field. -/
structure Block where
  parent_hash : Option Nat
  deriving DecidableEq, Repr

/-- An encoded block as received from the remote ledger.  Content hashing and
decoding (`Block::block_hash`, `Block::decode` from `ic_ledger_core`) are
black-box collaborators, so the embedding carries, for each raw block, its
hash value and the outcome decoding it would have. -/
structure EncodedBlock where
  hashVal : Nat
  decoded : Option Block
  decodeErr : String
  deriving DecidableEq, Repr

/-- Modelled from the spec: `Block::block_hash` is the collision-resistant
content hash of the raw block (spec §1, §3); in the embedding the hash value
accompanies the encoded block. -/
def Block.block_hash (b : EncodedBlock) : Nat := b.hashVal

/-- Modelled from the spec: `Block::decode`; decoding a malformed payload
fails (spec §4.1). -/
def Block.decode (b : EncodedBlock) : Except String Block :=
  match b.decoded with
  | some bl => .ok bl
  | none => .error b.decodeErr

/-- Modelled from the spec: `HashedBlock` from `crate::store` (not in the
sources).  Spec §3: raw payload, content hash computed once at verification
time, claimed parent hash, height. -/
structure HashedBlock where
  block : EncodedBlock
  hash : Nat
  parent_hash : Option Nat
  index : Nat
  deriving DecidableEq, Repr

/-- Modelled from the spec: `HashedBlock::hash_block(raw, parent_hash, index)`
computes the content hash and wraps the raw block (spec §3, §4.1); mirrors the
call `HashedBlock::hash_block(raw_block, last_block_hash, i)` in
`sync_range_of_blocks`. -/
def HashedBlock.hash_block (raw : EncodedBlock) (parent : Option Nat) (i : Nat) : HashedBlock :=
  { block := raw, hash := Block.block_hash raw, parent_hash := parent, index := i }

/-- `BlockStoreError` from `crate::store` (spec §6: `NotFound(height)` or a
generic store error). -/
inductive BlockStoreError where
  | NotFound (idx : Nat)
  | Other (msg : String)
  deriving DecidableEq, Repr

def storeErrStr : BlockStoreError → String
  | .NotFound n => "NotFound(" ++ toString n ++ ")"
  | .Other s => s

/-- Modelled from the spec: the `Blocks` local chain view over a block store
(spec §2 item 3, §6): blocks kept in ascending height order plus the
separately tracked last-verified watermark. -/
structure Blocks where
  blocks : List HashedBlock
  lastVerified : Option Nat
  deriving DecidableEq, Repr

/-- Modelled from the spec: store `first()` (spec §6). -/
def Blocks.first (b : Blocks) : Option HashedBlock := b.blocks.head?

/-- Modelled from the spec: store `last()` (spec §6). -/
def Blocks.last (b : Blocks) : Option HashedBlock := b.blocks.getLast?

/-- Modelled from the spec: store `get_at(height)` (spec §6:
`NotFound(height)` when absent). -/
def Blocks.get_at (b : Blocks) (h : Nat) : Except BlockStoreError HashedBlock :=
  match b.blocks.find? (fun hb => hb.index == h) with
  | some hb => .ok hb
  | none => .error (.NotFound h)

/-- Modelled from the spec: `Blocks::synced_to`, the `(hash, height)` of the
highest locally present block, absent when the local chain is empty
(spec §3 "Chain state"). -/
def Blocks.synced_to (b : Blocks) : Option (Nat × Nat) :=
  b.last.map (fun hb => (hb.hash, hb.index))

/-- Modelled from the spec: `Blocks::add_blocks_batch`, the all-or-nothing
batched append (spec §4.4, §6). -/
def Blocks.add_blocks_batch (b : Blocks) (batch : List HashedBlock) : Blocks :=
  { b with blocks := b.blocks ++ batch }

/-- Modelled from the spec: store `mark_last_verified(height)` (spec §6). -/
def Blocks.mark_last_verified (b : Blocks) (h : Nat) : Blocks :=
  { b with lastVerified := some h }

/-- Modelled from the spec: `Blocks::try_prune(&store_max_blocks, PRUNE_DELAY)`
(spec §4.5): with no configured maximum, pruning is disabled; otherwise the
store is asked to prune only once the number of blocks beyond the maximum
retention exceeds the delay threshold, and then the oldest contiguous span is
removed so that the maximum retention remains. -/
def Blocks.try_prune (b : Blocks) (store_max_blocks : Option Nat) (prune_delay : Nat) : Blocks :=
  match store_max_blocks with
  | none => b
  | some maxB =>
      if maxB + prune_delay < b.blocks.length then
        { b with blocks := b.blocks.drop (b.blocks.length - maxB) }
      else b

/-- `TipOfChainRes` from `ledger_canister` (spec §6). -/
structure TipOfChainRes where
  tip_index : Nat
  certification : Option Cert

/-- The `BlocksAccess` remote-ledger collaborator (spec §6).  Each operation is
a pure function of its arguments: the remote serves a fixed view during the
runs under study. -/
structure BlocksAccess where
  query_raw_block : Nat → Except String (Option EncodedBlock)
  query_tip : Except String TipOfChainRes
  multi_query_blocks : Nat → Nat → Except String (List EncodedBlock)

/-- Modelled from the spec: the certification verification key material
(`VerificationInfo` from `crate::certification`), reduced to the predicate
"this blob certifies this hash" (spec §3 "Certification"). -/
structure VerificationInfo where
  verify : Cert → Nat → Bool

/-- Observable actions of one `sync_blocks` run: the tip query, each poll of
the cancellation flag (with its poll number), each batch fetch (with the
requested half-open range), and each actual certification verification. -/
inductive Event where
  | tipQuery
  | poll (n : Nat)
  | fetch (lo hi : Nat)
  | certCheck (hash : Nat)
  deriving DecidableEq, Repr

/-- Modelled from the spec: `verify_block_hash` from `crate::certification`
(not in the sources).  Per spec §4.4 the final block's certification is
verified "if a certification was carried into this call", and per spec §3 a
certification is an opaque blob verifiable against the fixed key; with no blob
present there is nothing to verify and the block is accepted via hash-chain
linkage.  A `.certCheck` event records each actual verification attempt. -/
def verify_block_hash (certification : Option Cert) (hash : Nat) (vi : VerificationInfo) :
    Except String Unit × List Event :=
  match certification with
  | none => (.ok (), [])
  | some c =>
      (if vi.verify c hash then .ok () else .error "Certification verification failed",
       [.certCheck hash])

def optStr : Option Nat → String
  | none => "None"
  | some h => "Some(" ++ toString h ++ ")"

/-- The `sync_range_of_blocks` parent-hash mismatch message, reporting both the
expected (running `last_block_hash`) and the observed (decoded) parent hash. -/
def parentMismatchMsg (i : Nat) (expected got : Option Nat) : String :=
  "Block at " ++ toString i ++ ": parent hash mismatch. Expected: " ++ optStr expected ++
    ", got: " ++ optStr got

/-- The `sync_range_of_blocks` empty-batch message. -/
def emptyBatchMsg (i e : Nat) : String :=
  "Could not fetch blocks [" ++ toString i ++ "," ++ toString e ++ ") (batch result empty)"

def cannotDecodeMsg (err : String) : String := "Cannot decode block: " ++ err

def genesisMismatchMsg (storeHash canisterHash : Nat) : String :=
  "Genesis block from the store is different than in the ledger canister. Store hash: " ++
    toString storeHash ++ ", canister hash: " ++ toString canisterHash

def oldestMissingMsg (idx : Nat) : String :=
  "Oldest block snapshot does not match the block on the blockchain. " ++
    "Block with this index not found: " ++ toString idx

def oldestMismatchMsg (idx : Nat) (snapshotHash canisterHash : Nat) : String :=
  "Oldest block snapshot does not match the block on the blockchain. Index: " ++
    toString idx ++ ", snapshot hash: " ++ toString snapshotHash ++
    ", canister hash: " ++ toString canisterHash

/-- Outcome of a call that can panic (`unwrap`/`expect` in the source) in
addition to returning a `Result`. -/
inductive POutcome (α : Type) where
  | panics (msg : String)
  | returns (res : Except String α)

/-- The trailing half of `verify_store` (lines 146-173 of the source): when the
first retained block has height above zero, that height is fetched from the
remote and its existence and hash equality are required. -/
def verify_store_snapshot_check (first_block : Option HashedBlock) (ca : BlocksAccess) :
    Except String Unit :=
  match first_block with
  | some fb =>
      if fb.index > 0 then
        match ca.query_raw_block fb.index with
        | .error e => .error e
        | .ok none => .error (oldestMissingMsg fb.index)
        | .ok (some qb) =>
            if fb.hash ≠ Block.block_hash qb then
              .error (oldestMismatchMsg fb.index fb.hash (Block.block_hash qb))
            else .ok ()
      else .ok ()
  | none => .ok ()

/-- `LedgerBlocksSynchronizer::verify_store` (lines 109-176 of the source):
the construction-time consistency check of the local store against the remote
chain.  `.expect` on a missing remote genesis is a panic. -/
def verify_store (blocks : Blocks) (canister_access : BlocksAccess) : POutcome Unit :=
  let first_block := blocks.first
  match blocks.get_at 0 with
  | .ok store_genesis =>
      match canister_access.query_raw_block 0 with
      | .error e => .returns (.error e)
      | .ok none => .panics "Blockchain in the ledger canister is empty"
      | .ok (some genesis) =>
          if store_genesis.hash ≠ Block.block_hash genesis then
            .returns (.error (genesisMismatchMsg store_genesis.hash (Block.block_hash genesis)))
          else .returns (verify_store_snapshot_check first_block canister_access)
  | .error (.NotFound 0) =>
      if first_block.isSome then
        .returns (.error "Snapshot found, but genesis block not present in the store")
      else .returns (verify_store_snapshot_check first_block canister_access)
  | .error e => .returns (.error ("Error loading genesis block: " ++ storeErrStr e))

/-- `LedgerBlocksSynchronizer::verify_tip_of_chain` (lines 178-201 of the
source): fetch the remote tip and its certification and verify that the
certification proves the tip block's hash.  `.expect` on a missing tip block
is a panic. -/
def verify_tip_of_chain (ca : BlocksAccess) (vi : VerificationInfo) : POutcome Unit :=
  match ca.query_tip with
  | .error e => .returns (.error e)
  | .ok t =>
      match ca.query_raw_block t.tip_index with
      | .error e => .returns (.error e)
      | .ok none => .panics "Blockchain in the ledger canister is empty"
      | .ok (some tip_block) =>
          .returns (verify_block_hash t.certification (Block.block_hash tip_block) vi).1

/-- `PRUNE_DELAY` from the source. -/
def PRUNE_DELAY : Nat := 10000

/-- The `LedgerBlocksSynchronizer` state: the chain view plus the
construction-time configuration. -/
structure Synchronizer where
  blockchain : Blocks
  blocks_access : Option BlocksAccess
  store_max_blocks : Option Nat
  verification_info : Option VerificationInfo

/-- `LedgerBlocksSynchronizer::new` (lines 55-107 of the source).  The store
opened from `store_location` is abstracted by `initial_store` (its contents on
disk, or empty for the in-memory store); `load_from_store`, the metrics calls
and the startup log only read the store, so construction ends with the
verification phase followed by `try_prune`. -/
def newSynchronizer (blocks_access : Option BlocksAccess) (initial_store : Blocks)
    (store_max_blocks : Option Nat) (verification_info : Option VerificationInfo) :
    POutcome Synchronizer :=
  let finishNew : POutcome Synchronizer :=
    .returns (.ok { blockchain := initial_store.try_prune store_max_blocks PRUNE_DELAY,
                    blocks_access := blocks_access,
                    store_max_blocks := store_max_blocks,
                    verification_info := verification_info })
  match blocks_access with
  | none => finishNew
  | some ca =>
      match verify_store initial_store ca with
      | .panics m => .panics m
      | .returns (.error e) => .returns (.error e)
      | .returns (.ok _) =>
          match verification_info with
          | none => finishNew
          | some vinfo =>
              match verify_tip_of_chain ca vinfo with
              | .panics m => .panics m
              | .returns (.error e) => .returns (.error e)
              | .returns (.ok _) => finishNew

/-- The `i == range.end - 1` certification step of the batch loop (lines
332-337 of the source): only the final block of the whole requested range is
checked, and only when a verification key is configured. -/
def certStep (vi : Option VerificationInfo) (endIdx : Nat) (certification : Option Cert)
    (i : Nat) (hash : Nat) : Except String Unit × List Event :=
  if i = endIdx - 1 then
    match vi with
    | some v => verify_block_hash certification hash v
    | none => (.ok (), [])
  else (.ok (), [])

/-- The `for raw_block in batch` body of `sync_range_of_blocks` (lines 318-341
of the source): decode each raw block, check its decoded parent hash against
the running `last_block_hash`, wrap it, verify the certification only at
height `range.end - 1` when a verification key is configured, and advance the
cursor.  Returns the hashed batch, the advanced cursor and the new running
hash, plus the certification-check events. -/
def processBatch (vi : Option VerificationInfo) (endIdx : Nat) (certification : Option Cert)
    (batch : List EncodedBlock) (i : Nat) (last_block_hash : Option Nat) :
    Except String (List HashedBlock × Nat × Option Nat) × List Event :=
  match batch with
  | [] => (.ok ([], i, last_block_hash), [])
  | raw_block :: rest =>
      match Block.decode raw_block with
      | .error err => (.error (cannotDecodeMsg err), [])
      | .ok block =>
          if block.parent_hash ≠ last_block_hash then
            (.error (parentMismatchMsg i last_block_hash block.parent_hash), [])
          else
            let hb := HashedBlock.hash_block raw_block last_block_hash i
            match certStep vi endIdx certification i hb.hash with
            | (.error e, evs) => (.error e, evs)
            | (.ok _, evs) =>
                match processBatch vi endIdx certification rest (i + 1) (some hb.hash) with
                | (.ok (hbs, i2, lh2), evs2) => (.ok (hb :: hbs, i2, lh2), evs ++ evs2)
                | (.error e, evs2) => (.error e, evs ++ evs2)

/-- The loop-carried state of `sync_range_of_blocks`: cursor `i`, running
`last_block_hash`, and the chain view being appended to. -/
structure LoopSt where
  i : Nat
  lh : Option Nat
  bc : Blocks
  deriving Repr

/-- One iteration of the `while i < range.end` loop after the cancellation
poll (lines 300-344 of the source): fetch `[i, range.end)`, fail on an empty
batch, verify the batch, and append it in one operation. -/
def syncIter (c : BlocksAccess) (vi : Option VerificationInfo) (endIdx : Nat)
    (certification : Option Cert) (st : LoopSt) : Except String LoopSt × List Event :=
  match c.multi_query_blocks st.i endIdx with
  | .error e => (.error e, [.fetch st.i endIdx])
  | .ok batch =>
      if batch.isEmpty then
        (.error (emptyBatchMsg st.i endIdx), [.fetch st.i endIdx])
      else
        match processBatch vi endIdx certification batch st.i st.lh with
        | (.error e, evs) => (.error e, .fetch st.i endIdx :: evs)
        | (.ok (hbs, i2, lh2), evs) =>
            (.ok { i := i2, lh := lh2, bc := st.bc.add_blocks_batch hbs },
             .fetch st.i endIdx :: evs)

theorem processBatch_cursor (vi : Option VerificationInfo) (endIdx : Nat)
    (certification : Option Cert) :
    ∀ (batch : List EncodedBlock) (i : Nat) (lh : Option Nat) hbs i2 lh2 evs,
      processBatch vi endIdx certification batch i lh = (.ok (hbs, i2, lh2), evs) →
      i2 = i + batch.length ∧ hbs.length = batch.length := by
  intro batch
  induction batch with
  | nil =>
      intro i lh hbs i2 lh2 evs h
      simp only [processBatch, Prod.mk.injEq, Except.ok.injEq] at h
      obtain ⟨⟨h1, h2, h3⟩, h4⟩ := h
      subst h1; subst h2
      simp
  | cons raw rest ih =>
      intro i lh hbs i2 lh2 evs h
      simp only [processBatch] at h
      cases hdec : Block.decode raw with
      | error e => simp [hdec] at h
      | ok block =>
          simp only [hdec] at h
          by_cases hp : block.parent_hash = lh
          · simp only [hp, ne_eq, not_true_eq_false, ite_false, if_neg] at h
            rcases hchk : certStep vi endIdx certification i
                (HashedBlock.hash_block raw lh i).hash with ⟨cr, ce⟩
            rw [hchk] at h
            cases cr with
            | error e => simp at h
            | ok u =>
                rcases hrec : processBatch vi endIdx certification rest (i + 1)
                    (some (HashedBlock.hash_block raw lh i).hash) with ⟨rr, revs⟩
                rw [hrec] at h
                cases rr with
                | error e => simp at h
                | ok trip =>
                    obtain ⟨hbs', i2', lh2'⟩ := trip
                    simp only [Prod.mk.injEq, Except.ok.injEq] at h
                    obtain ⟨⟨hh, hi, hl⟩, he⟩ := h
                    obtain ⟨ha, hb⟩ := ih (i + 1) (some (HashedBlock.hash_block raw lh i).hash)
                        hbs' i2' lh2' revs (by rw [hrec])
                    subst hh; subst hi
                    simp only [List.length_cons]
                    constructor
                    · omega
                    · simp [hb]
          · simp [hp] at h

theorem syncIter_progress {c : BlocksAccess} {vi : Option VerificationInfo} {endIdx : Nat}
    {certification : Option Cert} {st st2 : LoopSt} {evs : List Event}
    (h : syncIter c vi endIdx certification st = (.ok st2, evs)) : st.i < st2.i := by
  unfold syncIter at h
  cases hq : c.multi_query_blocks st.i endIdx with
  | error e => rw [hq] at h; simp at h
  | ok batch =>
      rw [hq] at h
      by_cases hb : batch.isEmpty
      · simp [hb] at h
      · simp only [hb, if_false, ite_false, Bool.false_eq_true] at h
        rcases hpb : processBatch vi endIdx certification batch st.i st.lh with ⟨pr, pevs⟩
        rw [hpb] at h
        cases pr with
        | error e => simp at h
        | ok trip =>
            obtain ⟨hbs, i2, lh2⟩ := trip
            simp only [Prod.mk.injEq, Except.ok.injEq] at h
            obtain ⟨h1, _⟩ := h
            obtain ⟨hc, _⟩ := processBatch_cursor vi endIdx certification batch st.i st.lh
                hbs i2 lh2 pevs hpb
            have hbl : batch.length ≠ 0 := by
              intro hz
              exact hb (List.isEmpty_iff_length_eq_zero.mpr hz)
            have : st.i < i2 := by omega
            rw [← h1]
            exact this

/-- The `while i < range.end` loop of `sync_range_of_blocks` together with the
trailing `mark_last_verified(range.end - 1)` (lines 293-353 of the source):
poll the cancellation flag once per iteration, fetch `[i, range.end)`, verify
and append the batch, and after the loop record the verified watermark.
Returns the call's result, the final chain view, and the event trace. -/
def syncRangeGo (c : BlocksAccess) (vi : Option VerificationInfo) (endIdx : Nat)
    (stopped : Nat → Bool) (polls : Nat) (certification : Option Cert) (st : LoopSt) :
    Except String Unit × Blocks × List Event :=
  if h : st.i < endIdx then
    if stopped polls then
      (.error "Interrupted", st.bc, [.poll polls])
    else
      match hstep : syncIter c vi endIdx certification st with
      | (.error e, evs) => (.error e, st.bc, .poll polls :: evs)
      | (.ok st2, evs) =>
          let r := syncRangeGo c vi endIdx stopped (polls + 1) certification st2
          (r.1, r.2.1, .poll polls :: (evs ++ r.2.2))
  else
    (.ok (), st.bc.mark_last_verified (endIdx - 1), [])
termination_by endIdx - st.i
decreasing_by
  exact Nat.sub_lt_sub_left h (syncIter_progress hstep)

/-- Outcome of one `sync_blocks` call: either a panic (an `unwrap` of `None`)
or a `Result` together with the final chain view and the event trace. -/
inductive SyncOutcome where
  | panics
  | returns (res : Except String Unit) (chain : Blocks) (tr : List Event)
  deriving Repr

/-- `u64::MAX`, the default upper bound when none is requested. -/
def u64Max : Nat := 18446744073709551615

/-- The `(last_block_hash, next_block_index)` pair `sync_blocks` derives from
`blockchain.synced_to()` (lines 221-224 of the source). -/
def nextOf (b : Blocks) : Option Nat × Nat :=
  match b.synced_to with
  | some (hash, index) => (some hash, index + 1)
  | none => (none, 0)

/-- `LedgerBlocksSynchronizer::sync_blocks` (lines 207-271 of the source):
query the remote tip, compute the missing range, treat a lagging remote tip or
an exhausted bound as a successful no-op, discard the certification when the
effective bound is not the tip, run the batch loop, and prune on success.
`self.blocks_access.as_ref().unwrap()` panics when no remote access handle was
configured, and `blockchain.last()?.unwrap()` panics on an empty chain after a
successful range sync. -/
def syncBlocks (s : Synchronizer) (stopped : Nat → Bool) (up_to_block_included : Option Nat) :
    SyncOutcome :=
  match s.blocks_access with
  | none => .panics
  | some canister =>
      match canister.query_tip with
      | .error e => .returns (.error e) s.blockchain [.tipQuery]
      | .ok t =>
          let tip_index := t.tip_index
          let last_block_hash := (nextOf s.blockchain).1
          let next_block_index := (nextOf s.blockchain).2
          if next_block_index > tip_index then
            .returns (.ok ()) s.blockchain [.tipQuery]
          else
            let up := min tip_index (up_to_block_included.getD u64Max)
            let certification := if up ≠ tip_index then none else t.certification
            if next_block_index > up then
              .returns (.ok ()) s.blockchain [.tipQuery]
            else
              let r := syncRangeGo canister s.verification_info (up + 1) stopped 0 certification
                  { i := next_block_index, lh := last_block_hash, bc := s.blockchain }
              match r.1 with
              | .error e => .returns (.error e) r.2.1 (.tipQuery :: r.2.2)
              | .ok _ =>
                  match r.2.1.last with
                  | none => .panics
                  | some _ =>
                      .returns (.ok ()) (r.2.1.try_prune s.store_max_blocks PRUNE_DELAY)
                        (.tipQuery :: r.2.2)

/-- Executable rendering of the chain-link invariant (spec §3, §8): every pair
of adjacent stored blocks is linked by parent hash and by consecutive
heights. -/
def chainOk : List HashedBlock → Bool
  | [] => true
  | [_] => true
  | a :: b :: rest => (b.parent_hash == some a.hash && b.index == a.index + 1) && chainOk (b :: rest)

/-- `l` is a valid chain continuation of parent hash `ph` at height `i`. -/
def chainFromB (ph : Option Nat) (i : Nat) : List HashedBlock → Bool
  | [] => true
  | hb :: rest => (hb.parent_hash == ph && hb.index == i) && chainFromB (some hb.hash) (i + 1) rest

/-- The running hash after appending `l` to a chain whose running hash was
`ph`. -/
def endHash (ph : Option Nat) (l : List HashedBlock) : Option Nat :=
  match l.getLast? with
  | some hb => some hb.hash
  | none => ph

/-- The loop state after `k` successfully completed batch iterations, when the
first `k` iterations all run (the cursor still below the bound and the
iteration succeeding). -/
def iterSt (c : BlocksAccess) (vi : Option VerificationInfo) (endIdx : Nat)
    (certification : Option Cert) : Nat → LoopSt → Option LoopSt
  | 0, st => some st
  | k + 1, st =>
      if st.i < endIdx then
        match (syncIter c vi endIdx certification st).1 with
        | .ok st2 => iterSt c vi endIdx certification k st2
        | .error _ => none
      else none

/-- A cancellation schedule that raises the flag at the `N`-th poll and keeps
it raised. -/
def stopAt (N : Nat) : Nat → Bool := fun k => decide (N ≤ k)

/-- A cancellation flag that is never raised. -/
def neverStop : Nat → Bool := fun _ => false

/-- The result-and-chain part of a loop run (the trace dropped). -/
def rcGo (r : Except String Unit × Blocks × List Event) : Except String Unit × Blocks :=
  (r.1, r.2.1)

/-- The result-and-chain part of a `sync_blocks` outcome (`none` on panic). -/
def SyncOutcome.rc : SyncOutcome → Option (Except String Unit × Blocks)
  | .panics => none
  | .returns res chain _ => some (res, chain)

/-- The loop-carried state `sync_blocks` recomputes from a chain view. -/
def stOf (b : Blocks) : LoopSt :=
  { i := (nextOf b).2, lh := (nextOf b).1, bc := b }

/-- The recomputed state of a loop state matches it: the invariant that makes
an interrupted sync resumable. -/
def StInv (st : LoopSt) : Prop := nextOf st.bc = (st.lh, st.i)

theorem syncRangeGo_done {c : BlocksAccess} {vi : Option VerificationInfo} {endIdx : Nat}
    {stopped : Nat → Bool} {polls : Nat} {certification : Option Cert} {st : LoopSt}
    (h : ¬ st.i < endIdx) :
    syncRangeGo c vi endIdx stopped polls certification st =
      (.ok (), st.bc.mark_last_verified (endIdx - 1), []) := by
  rw [syncRangeGo]
  simp [h]

theorem syncRangeGo_stopped {c : BlocksAccess} {vi : Option VerificationInfo} {endIdx : Nat}
    {stopped : Nat → Bool} {polls : Nat} {certification : Option Cert} {st : LoopSt}
    (h : st.i < endIdx) (hs : stopped polls = true) :
    syncRangeGo c vi endIdx stopped polls certification st =
      (.error "Interrupted", st.bc, [.poll polls]) := by
  rw [syncRangeGo]
  simp [h, hs]

theorem syncRangeGo_iter_err {c : BlocksAccess} {vi : Option VerificationInfo} {endIdx : Nat}
    {stopped : Nat → Bool} {polls : Nat} {certification : Option Cert} {st : LoopSt}
    {e : String} {evs : List Event}
    (h : st.i < endIdx) (hs : stopped polls = false)
    (hit : syncIter c vi endIdx certification st = (.error e, evs)) :
    syncRangeGo c vi endIdx stopped polls certification st =
      (.error e, st.bc, .poll polls :: evs) := by
  rw [syncRangeGo]
  simp only [dif_pos h, hs, Bool.false_eq_true, if_false, ite_false]
  split
  · rename_i e2 evs2 heq
    rw [hit] at heq
    simp only [Prod.mk.injEq, Except.error.injEq] at heq
    obtain ⟨h1, h2⟩ := heq
    rw [h1, h2]
  · rename_i st2 evs2 heq
    rw [hit] at heq
    simp at heq

theorem syncRangeGo_iter_ok {c : BlocksAccess} {vi : Option VerificationInfo} {endIdx : Nat}
    {stopped : Nat → Bool} {polls : Nat} {certification : Option Cert} {st st2 : LoopSt}
    {evs : List Event}
    (h : st.i < endIdx) (hs : stopped polls = false)
    (hit : syncIter c vi endIdx certification st = (.ok st2, evs)) :
    syncRangeGo c vi endIdx stopped polls certification st =
      ((syncRangeGo c vi endIdx stopped (polls + 1) certification st2).1,
       (syncRangeGo c vi endIdx stopped (polls + 1) certification st2).2.1,
       .poll polls ::
         (evs ++ (syncRangeGo c vi endIdx stopped (polls + 1) certification st2).2.2)) := by
  rw [syncRangeGo]
  simp only [dif_pos h, hs, Bool.false_eq_true, if_false, ite_false]
  split
  · rename_i e2 evs2 heq
    rw [hit] at heq
    simp at heq
  · rename_i st3 evs3 heq
    rw [hit] at heq
    simp only [Prod.mk.injEq, Except.ok.injEq] at heq
    obtain ⟨h1, h2⟩ := heq
    rw [h1, h2]

theorem chainOk_tail {a : HashedBlock} {l : List HashedBlock}
    (h : chainOk (a :: l) = true) : chainOk l = true := by
  cases l with
  | nil => rfl
  | cons b r =>
      simp only [chainOk, Bool.and_eq_true] at h
      exact h.2

theorem chainFromB_chainOk : ∀ (l : List HashedBlock) (ph : Option Nat) (i : Nat),
    chainFromB ph i l = true → chainOk l = true := by
  intro l
  induction l with
  | nil => intro ph i _; rfl
  | cons hb rest ih =>
      intro ph i h
      simp only [chainFromB, Bool.and_eq_true, beq_iff_eq] at h
      obtain ⟨⟨hph, hidx⟩, hrest⟩ := h
      cases rest with
      | nil => rfl
      | cons b r =>
          have hb2 := hrest
          simp only [chainFromB, Bool.and_eq_true, beq_iff_eq] at hb2
          obtain ⟨⟨hbp, hbi⟩, _⟩ := hb2
          simp only [chainOk, Bool.and_eq_true, beq_iff_eq]
          exact ⟨⟨by rw [hbp], by rw [hbi, hidx]⟩, ih (some hb.hash) (i + 1) hrest⟩

theorem chainOk_append : ∀ (l : List HashedBlock) (ph : Option Nat) (i : Nat)
    (m : List HashedBlock),
    chainOk l = true →
    (∀ b, l.getLast? = some b → ph = some b.hash ∧ i = b.index + 1) →
    chainFromB ph i m = true → chainOk (l ++ m) = true := by
  intro l
  induction l with
  | nil => intro ph i m _ _ hm; exact chainFromB_chainOk m ph i hm
  | cons a l' ih =>
      intro ph i m hok hj hm
      cases l' with
      | nil =>
          cases m with
          | nil => rfl
          | cons hb r =>
              obtain ⟨hph, hidx⟩ := hj a (by rfl)
              have hm' := hm
              simp only [chainFromB, Bool.and_eq_true, beq_iff_eq] at hm
              obtain ⟨⟨hbp, hbi⟩, hrest⟩ := hm
              simp only [List.cons_append, List.nil_append, chainOk, Bool.and_eq_true,
                beq_iff_eq]
              exact ⟨⟨by rw [hbp, hph], by rw [hbi, hidx]⟩,
                chainFromB_chainOk _ _ _ hm'⟩
      | cons b r =>
          simp only [chainOk, Bool.and_eq_true] at hok
          obtain ⟨hlink, hrest⟩ := hok
          have hj' : ∀ x, (b :: r).getLast? = some x → ph = some x.hash ∧ i = x.index + 1 := by
            intro x hx
            exact hj x (by rw [List.getLast?_cons_cons]; exact hx)
          have := ih ph i m hrest hj' hm
          simp only [List.cons_append, chainOk, Bool.and_eq_true]
          exact ⟨hlink, this⟩

theorem chainOk_drop : ∀ (n : Nat) (l : List HashedBlock),
    chainOk l = true → chainOk (l.drop n) = true := by
  intro n
  induction n with
  | zero => intro l h; exact h
  | succ n ih =>
      intro l h
      cases l with
      | nil => rfl
      | cons a l' => exact ih l' (chainOk_tail h)

theorem cons_getLast?_some : ∀ (r : List HashedBlock) (c : HashedBlock),
    ∃ x, (c :: r).getLast? = some x := by
  intro r
  induction r with
  | nil => intro c; exact ⟨c, rfl⟩
  | cons d r' ih =>
      intro c
      obtain ⟨x, hx⟩ := ih d
      exact ⟨x, by rw [List.getLast?_cons_cons]; exact hx⟩

theorem endHash_cons (ph : Option Nat) (hb : HashedBlock) (l : List HashedBlock) :
    endHash ph (hb :: l) = endHash (some hb.hash) l := by
  cases l with
  | nil => rfl
  | cons c r =>
      obtain ⟨x, hx⟩ := cons_getLast?_some r c
      unfold endHash
      rw [List.getLast?_cons_cons, hx]

theorem chainFromB_last : ∀ (l : List HashedBlock) (ph : Option Nat) (i : Nat),
    chainFromB ph i l = true → l ≠ [] →
    ∃ hb, l.getLast? = some hb ∧ hb.index + 1 = i + l.length ∧ endHash ph l = some hb.hash := by
  intro l
  induction l with
  | nil => intro ph i _ hne; exact absurd rfl hne
  | cons hb rest ih =>
      intro ph i h _
      simp only [chainFromB, Bool.and_eq_true, beq_iff_eq] at h
      obtain ⟨⟨_, hidx⟩, hrest⟩ := h
      cases rest with
      | nil =>
          refine ⟨hb, rfl, ?_, rfl⟩
          simp [hidx]
      | cons c cs =>
          obtain ⟨hb2, hlast, hind, hend⟩ := ih (some hb.hash) (i + 1) hrest (by simp)
          refine ⟨hb2, ?_, ?_, ?_⟩
          · rw [List.getLast?_cons_cons]; exact hlast
          · simp only [List.length_cons] at hind ⊢
            omega
          · rw [endHash_cons]; exact hend

theorem processBatch_chain (vi : Option VerificationInfo) (endIdx : Nat)
    (certification : Option Cert) :
    ∀ (batch : List EncodedBlock) (i : Nat) (lh : Option Nat) hbs i2 lh2 evs,
      processBatch vi endIdx certification batch i lh = (.ok (hbs, i2, lh2), evs) →
      chainFromB lh i hbs = true ∧ lh2 = endHash lh hbs ∧ i2 = i + hbs.length := by
  intro batch
  induction batch with
  | nil =>
      intro i lh hbs i2 lh2 evs h
      simp only [processBatch, Prod.mk.injEq, Except.ok.injEq] at h
      obtain ⟨⟨h1, h2, h3⟩, _⟩ := h
      subst h1; subst h2; subst h3
      exact ⟨rfl, rfl, rfl⟩
  | cons raw rest ih =>
      intro i lh hbs i2 lh2 evs h
      simp only [processBatch] at h
      cases hdec : Block.decode raw with
      | error e => simp [hdec] at h
      | ok block =>
          simp only [hdec] at h
          by_cases hp : block.parent_hash = lh
          · simp only [hp, ne_eq, not_true_eq_false, ite_false, if_neg] at h
            rcases hchk : certStep vi endIdx certification i
                (HashedBlock.hash_block raw lh i).hash with ⟨cr, ce⟩
            rw [hchk] at h
            cases cr with
            | error e => simp at h
            | ok u =>
                rcases hrec : processBatch vi endIdx certification rest (i + 1)
                    (some (HashedBlock.hash_block raw lh i).hash) with ⟨rr, revs⟩
                rw [hrec] at h
                cases rr with
                | error e => simp at h
                | ok trip =>
                    obtain ⟨hbs', i2', lh2'⟩ := trip
                    simp only [Prod.mk.injEq, Except.ok.injEq] at h
                    obtain ⟨⟨hh, hi, hl⟩, _⟩ := h
                    obtain ⟨ha, hbEnd, hcur⟩ := ih (i + 1)
                        (some (HashedBlock.hash_block raw lh i).hash) hbs' i2' lh2' revs
                        (by rw [hrec])
                    subst hh; subst hi; subst hl
                    refine ⟨?_, ?_, ?_⟩
                    · simp only [chainFromB, Bool.and_eq_true, beq_iff_eq]
                      exact ⟨⟨rfl, rfl⟩, ha⟩
                    · rw [endHash_cons]
                      exact hbEnd
                    · simp only [List.length_cons]
                      omega
          · simp [hp] at h

theorem syncIter_ok_spec {c : BlocksAccess} {vi : Option VerificationInfo} {endIdx : Nat}
    {certification : Option Cert} {st st2 : LoopSt} {evs : List Event}
    (h : syncIter c vi endIdx certification st = (.ok st2, evs)) :
    ∃ hbs, hbs ≠ [] ∧ st2.bc = st.bc.add_blocks_batch hbs ∧
      chainFromB st.lh st.i hbs = true ∧ st2.lh = endHash st.lh hbs ∧
      st2.i = st.i + hbs.length := by
  unfold syncIter at h
  cases hq : c.multi_query_blocks st.i endIdx with
  | error e => rw [hq] at h; simp at h
  | ok batch =>
      rw [hq] at h
      by_cases hb : batch.isEmpty
      · simp [hb] at h
      · simp only [hb, Bool.false_eq_true, if_false, ite_false] at h
        rcases hpb : processBatch vi endIdx certification batch st.i st.lh with ⟨pr, pevs⟩
        rw [hpb] at h
        cases pr with
        | error e => simp at h
        | ok trip =>
            obtain ⟨hbs, i2, lh2⟩ := trip
            simp only [Prod.mk.injEq, Except.ok.injEq] at h
            obtain ⟨h1, _⟩ := h
            obtain ⟨hchain, hend, hcur⟩ := processBatch_chain vi endIdx certification batch
                st.i st.lh hbs i2 lh2 pevs hpb
            obtain ⟨_, hlen⟩ := processBatch_cursor vi endIdx certification batch
                st.i st.lh hbs i2 lh2 pevs hpb
            refine ⟨hbs, ?_, ?_, hchain, ?_, ?_⟩
            · intro hnil
              rw [hnil] at hlen
              exact hb (List.isEmpty_iff_length_eq_zero.mpr hlen.symm)
            · rw [← h1]
            · rw [← h1]; exact hend
            · rw [← h1]; exact hcur

theorem nextOf_getLast {b : Blocks} {hb : HashedBlock} (h : b.blocks.getLast? = some hb) :
    nextOf b = (some hb.hash, hb.index + 1) := by
  unfold nextOf Blocks.synced_to Blocks.last
  rw [h]
  rfl

theorem nextOf_nil {b : Blocks} (h : b.blocks = []) : nextOf b = (none, 0) := by
  unfold nextOf Blocks.synced_to Blocks.last
  rw [h]
  rfl

theorem StInv_syncIter {c : BlocksAccess} {vi : Option VerificationInfo} {endIdx : Nat}
    {certification : Option Cert} {st st2 : LoopSt} {evs : List Event}
    (h : syncIter c vi endIdx certification st = (.ok st2, evs)) : StInv st2 := by
  obtain ⟨hbs, hne, hbc, hchain, hend, hcur⟩ := syncIter_ok_spec h
  obtain ⟨hbLast, hlast, hind, hendh⟩ := chainFromB_last hbs st.lh st.i hchain hne
  have hlast2 : st2.bc.blocks.getLast? = some hbLast := by
    rw [hbc]
    unfold Blocks.add_blocks_batch
    simp only
    rw [List.getLast?_append_of_ne_nil _ hne]
    exact hlast
  unfold StInv
  rw [nextOf_getLast hlast2]
  rw [hend, hendh, hcur]
  rw [← hind]

theorem chainOk_syncIter {c : BlocksAccess} {vi : Option VerificationInfo} {endIdx : Nat}
    {certification : Option Cert} {st st2 : LoopSt} {evs : List Event}
    (hok : chainOk st.bc.blocks = true) (hinv : StInv st)
    (h : syncIter c vi endIdx certification st = (.ok st2, evs)) :
    chainOk st2.bc.blocks = true := by
  obtain ⟨hbs, hne, hbc, hchain, hend, hcur⟩ := syncIter_ok_spec h
  rw [hbc]
  unfold Blocks.add_blocks_batch
  simp only
  apply chainOk_append st.bc.blocks st.lh st.i hbs hok _ hchain
  intro b hb
  have := nextOf_getLast (b := st.bc) hb
  unfold StInv at hinv
  rw [hinv] at this
  simp only [Prod.mk.injEq] at this
  exact ⟨this.1, this.2⟩

theorem mark_blocks (b : Blocks) (h : Nat) :
    (b.mark_last_verified h).blocks = b.blocks := rfl

theorem add_lastVerified (b : Blocks) (l : List HashedBlock) :
    (b.add_blocks_batch l).lastVerified = b.lastVerified := rfl

theorem add_blocks (b : Blocks) (l : List HashedBlock) :
    (b.add_blocks_batch l).blocks = b.blocks ++ l := rfl

theorem chainOk_syncRangeGo (c : BlocksAccess) (vi : Option VerificationInfo) (endIdx : Nat)
    (certification : Option Cert) :
    ∀ (n : Nat) (st : LoopSt) (stopped : Nat → Bool) (polls : Nat),
      endIdx - st.i ≤ n → chainOk st.bc.blocks = true → StInv st →
      chainOk ((syncRangeGo c vi endIdx stopped polls certification st).2.1).blocks = true := by
  intro n
  induction n with
  | zero =>
      intro st stopped polls hn hok _
      have h : ¬ st.i < endIdx := by omega
      rw [syncRangeGo_done h, mark_blocks]
      exact hok
  | succ n ih =>
      intro st stopped polls hn hok hinv
      by_cases h : st.i < endIdx
      · by_cases hs : stopped polls = true
        · rw [syncRangeGo_stopped h hs]
          exact hok
        · rw [Bool.not_eq_true] at hs
          rcases hit : syncIter c vi endIdx certification st with ⟨ir, evs⟩
          cases ir with
          | error e =>
              rw [syncRangeGo_iter_err h hs hit]
              exact hok
          | ok st2 =>
              rw [syncRangeGo_iter_ok h hs hit]
              have hlt : st.i < st2.i := syncIter_progress hit
              exact ih st2 stopped (polls + 1) (by omega)
                (chainOk_syncIter hok hinv hit) (StInv_syncIter hit)
      · rw [syncRangeGo_done h, mark_blocks]
        exact hok

theorem syncRangeGo_extends (c : BlocksAccess) (vi : Option VerificationInfo) (endIdx : Nat)
    (certification : Option Cert) :
    ∀ (n : Nat) (st : LoopSt) (stopped : Nat → Bool) (polls : Nat),
      endIdx - st.i ≤ n →
      (∃ t, ((syncRangeGo c vi endIdx stopped polls certification st).2.1).blocks =
          st.bc.blocks ++ t) ∧
      (∀ e, (syncRangeGo c vi endIdx stopped polls certification st).1 = .error e →
          ((syncRangeGo c vi endIdx stopped polls certification st).2.1).lastVerified =
            st.bc.lastVerified) := by
  intro n
  induction n with
  | zero =>
      intro st stopped polls hn
      have h : ¬ st.i < endIdx := by omega
      rw [syncRangeGo_done h]
      exact ⟨⟨[], by simp [mark_blocks]⟩, by intro e he; simp at he⟩
  | succ n ih =>
      intro st stopped polls hn
      by_cases h : st.i < endIdx
      · by_cases hs : stopped polls = true
        · rw [syncRangeGo_stopped h hs]
          exact ⟨⟨[], by simp⟩, by intro e _; rfl⟩
        · rw [Bool.not_eq_true] at hs
          rcases hit : syncIter c vi endIdx certification st with ⟨ir, evs⟩
          cases ir with
          | error e =>
              rw [syncRangeGo_iter_err h hs hit]
              exact ⟨⟨[], by simp⟩, by intro e2 _; rfl⟩
          | ok st2 =>
              rw [syncRangeGo_iter_ok h hs hit]
              have hlt : st.i < st2.i := syncIter_progress hit
              obtain ⟨⟨t, ht⟩, hlv⟩ := ih st2 stopped (polls + 1) (by omega)
              obtain ⟨hbs, _, hbc, _, _, _⟩ := syncIter_ok_spec hit
              refine ⟨⟨hbs ++ t, ?_⟩, ?_⟩
              · simp only [ht, hbc, add_blocks, List.append_assoc]
              · intro e he
                have := hlv e he
                rw [this, hbc, add_lastVerified]
      · rw [syncRangeGo_done h]
        exact ⟨⟨[], by simp [mark_blocks]⟩, by intro e he; simp at he⟩

theorem rcGo_mk (x : Except String Unit) (y : Blocks) (z : List Event) :
    rcGo (x, y, z) = (x, y) := rfl

theorem neverStop_false (p : Nat) : neverStop p = false := rfl

theorem ff_p_irrel (c : BlocksAccess) (vi : Option VerificationInfo) (endIdx : Nat)
    (certification : Option Cert) :
    ∀ (n : Nat) (st : LoopSt) (p q : Nat), endIdx - st.i ≤ n →
      rcGo (syncRangeGo c vi endIdx neverStop p certification st) =
        rcGo (syncRangeGo c vi endIdx neverStop q certification st) := by
  intro n
  induction n with
  | zero =>
      intro st p q hn
      have h : ¬ st.i < endIdx := by omega
      simp only [syncRangeGo_done h]
  | succ n ih =>
      intro st p q hn
      by_cases h : st.i < endIdx
      · rcases hit : syncIter c vi endIdx certification st with ⟨ir, evs⟩
        cases ir with
        | error e =>
            rw [syncRangeGo_iter_err h (neverStop_false p) hit,
              syncRangeGo_iter_err h (neverStop_false q) hit]
            rfl
        | ok st2 =>
            rw [syncRangeGo_iter_ok h (neverStop_false p) hit,
              syncRangeGo_iter_ok h (neverStop_false q) hit]
            have hlt : st.i < st2.i := syncIter_progress hit
            have := ih st2 (p + 1) (q + 1) (by omega)
            simp only [rcGo, Prod.mk.injEq] at this ⊢
            exact this
      · simp only [syncRangeGo_done h]

theorem ffStep (c : BlocksAccess) (vi : Option VerificationInfo) (endIdx : Nat)
    (certification : Option Cert) {st st2 : LoopSt} {evs : List Event}
    (h : st.i < endIdx) (hit : syncIter c vi endIdx certification st = (.ok st2, evs)) :
    rcGo (syncRangeGo c vi endIdx neverStop 0 certification st) =
      rcGo (syncRangeGo c vi endIdx neverStop 0 certification st2) := by
  rw [syncRangeGo_iter_ok h (neverStop_false 0) hit]
  rw [rcGo]
  simp only
  have := ff_p_irrel c vi endIdx certification (endIdx - st2.i) st2 1 0 le_rfl
  simp only [rcGo, Prod.mk.injEq] at this ⊢
  exact this

theorem ffrun_iter (c : BlocksAccess) (vi : Option VerificationInfo) (endIdx : Nat)
    (certification : Option Cert) :
    ∀ (k : Nat) (st st2 : LoopSt), iterSt c vi endIdx certification k st = some st2 →
      rcGo (syncRangeGo c vi endIdx neverStop 0 certification st) =
        rcGo (syncRangeGo c vi endIdx neverStop 0 certification st2) := by
  intro k
  induction k with
  | zero =>
      intro st st2 hk
      simp only [iterSt, Option.some.injEq] at hk
      rw [hk]
  | succ k ih =>
      intro st st2 hk
      simp only [iterSt] at hk
      by_cases h : st.i < endIdx
      · rw [if_pos h] at hk
        rcases hit : syncIter c vi endIdx certification st with ⟨ir, evs⟩
        rw [hit] at hk
        cases ir with
        | error e => simp at hk
        | ok st3 =>
            simp only at hk
            rw [ffStep c vi endIdx certification h hit]
            exact ih st3 st2 hk
      · rw [if_neg h] at hk
        simp at hk

theorem iterSt_StInv (c : BlocksAccess) (vi : Option VerificationInfo) (endIdx : Nat)
    (certification : Option Cert) :
    ∀ (k : Nat) (st st2 : LoopSt), StInv st →
      iterSt c vi endIdx certification k st = some st2 → StInv st2 := by
  intro k
  induction k with
  | zero =>
      intro st st2 hinv hk
      simp only [iterSt, Option.some.injEq] at hk
      rw [← hk]
      exact hinv
  | succ k ih =>
      intro st st2 hinv hk
      simp only [iterSt] at hk
      by_cases h : st.i < endIdx
      · rw [if_pos h] at hk
        rcases hit : syncIter c vi endIdx certification st with ⟨ir, evs⟩
        rw [hit] at hk
        cases ir with
        | error e => simp at hk
        | ok st3 =>
            simp only at hk
            exact ih st3 st2 (StInv_syncIter hit) hk
      · rw [if_neg h] at hk
        simp at hk

/-- The remote's batch contract (spec §6): `multi_query_blocks` never returns
more blocks than the requested range holds. -/
def BatchContract (c : BlocksAccess) : Prop :=
  ∀ lo hi batch, c.multi_query_blocks lo hi = .ok batch → batch.length ≤ hi - lo

theorem syncIter_ok_le {c : BlocksAccess} {vi : Option VerificationInfo} {endIdx : Nat}
    {certification : Option Cert} {st st2 : LoopSt} {evs : List Event}
    (hc : BatchContract c)
    (h : syncIter c vi endIdx certification st = (.ok st2, evs)) : st2.i ≤ endIdx := by
  unfold syncIter at h
  cases hq : c.multi_query_blocks st.i endIdx with
  | error e => rw [hq] at h; simp at h
  | ok batch =>
      rw [hq] at h
      by_cases hb : batch.isEmpty
      · simp [hb] at h
      · simp only [hb, Bool.false_eq_true, if_false, ite_false] at h
        rcases hpb : processBatch vi endIdx certification batch st.i st.lh with ⟨pr, pevs⟩
        rw [hpb] at h
        cases pr with
        | error e => simp at h
        | ok trip =>
            obtain ⟨hbs, i2, lh2⟩ := trip
            simp only [Prod.mk.injEq, Except.ok.injEq] at h
            obtain ⟨h1, _⟩ := h
            obtain ⟨hcur, hlenEq⟩ := processBatch_cursor vi endIdx certification batch
                st.i st.lh hbs i2 lh2 pevs hpb
            have hlen := hc st.i endIdx batch hq
            have hbpos : batch.length ≠ 0 := fun hz =>
              hb (List.isEmpty_iff_length_eq_zero.mpr hz)
            have hsti : st2.i = i2 := by rw [← h1]
            rw [hsti]
            omega

theorem iterSt_le (c : BlocksAccess) (vi : Option VerificationInfo) (endIdx : Nat)
    (certification : Option Cert) (hc : BatchContract c) :
    ∀ (k : Nat) (st st2 : LoopSt), st.i ≤ endIdx →
      iterSt c vi endIdx certification k st = some st2 → st2.i ≤ endIdx := by
  intro k
  induction k with
  | zero =>
      intro st st2 hle hk
      simp only [iterSt, Option.some.injEq] at hk
      rw [← hk]
      exact hle
  | succ k ih =>
      intro st st2 hle hk
      simp only [iterSt] at hk
      by_cases h : st.i < endIdx
      · rw [if_pos h] at hk
        rcases hit : syncIter c vi endIdx certification st with ⟨ir, evs⟩
        rw [hit] at hk
        cases ir with
        | error e => simp at hk
        | ok st3 =>
            simp only at hk
            exact ih st3 st2 (syncIter_ok_le hc hit) hk
      · rw [if_neg h] at hk
        simp at hk

theorem run1char (c : BlocksAccess) (vi : Option VerificationInfo) (endIdx : Nat)
    (certification : Option Cert) :
    ∀ (d : Nat) (st : LoopSt) (p : Nat),
      rcGo (syncRangeGo c vi endIdx (stopAt (p + d)) p certification st) =
        match iterSt c vi endIdx certification d st with
        | some stN =>
            if stN.i < endIdx then (.error "Interrupted", stN.bc)
            else (.ok (), stN.bc.mark_last_verified (endIdx - 1))
        | none => rcGo (syncRangeGo c vi endIdx neverStop 0 certification st) := by
  intro d
  induction d with
  | zero =>
      intro st p
      simp only [iterSt]
      by_cases h : st.i < endIdx
      · have hs : stopAt (p + 0) p = true := by simp [stopAt]
        rw [syncRangeGo_stopped h hs, if_pos h, rcGo_mk]
      · rw [syncRangeGo_done h, if_neg h, rcGo_mk]
  | succ d ih =>
      intro st p
      by_cases h : st.i < endIdx
      · have hs : stopAt (p + (d + 1)) p = false := by
          simp only [stopAt, decide_eq_false_iff_not]
          omega
        rcases hit : syncIter c vi endIdx certification st with ⟨ir, evs⟩
        cases ir with
        | error e =>
            rw [syncRangeGo_iter_err h hs hit, rcGo_mk]
            simp only [iterSt, if_pos h, hit]
            rw [syncRangeGo_iter_err h (neverStop_false 0) hit, rcGo_mk]
        | ok st2 =>
            have harith : p + (d + 1) = (p + 1) + d := by omega
            have hL : rcGo (syncRangeGo c vi endIdx (stopAt (p + (d + 1))) p
                  certification st) =
                rcGo (syncRangeGo c vi endIdx (stopAt ((p + 1) + d)) (p + 1)
                  certification st2) := by
              rw [syncRangeGo_iter_ok h hs hit, rcGo_mk, ← harith]
              rfl
            rw [hL, ih st2 (p + 1)]
            have hiter : iterSt c vi endIdx certification (d + 1) st =
                iterSt c vi endIdx certification d st2 := by
              simp only [iterSt, if_pos h, hit]
            rw [hiter]
            cases hk : iterSt c vi endIdx certification d st2 with
            | some stN => simp only [hk]
            | none =>
                simp only [hk]
                exact (ffStep c vi endIdx certification h hit).symm
      · have hk : iterSt c vi endIdx certification (d + 1) st = none := by
          simp only [iterSt, if_neg h]
        simp only [hk, syncRangeGo_done h, rcGo_mk]

theorem ffrun_cases (c : BlocksAccess) (vi : Option VerificationInfo) (endIdx : Nat)
    (certification : Option Cert) :
    ∀ (n : Nat) (st : LoopSt), endIdx - st.i ≤ n →
      (∃ k stF, iterSt c vi endIdx certification k st = some stF ∧ ¬ stF.i < endIdx ∧
        rcGo (syncRangeGo c vi endIdx neverStop 0 certification st) =
          (.ok (), stF.bc.mark_last_verified (endIdx - 1))) ∨
      (∃ k stK e evs, iterSt c vi endIdx certification k st = some stK ∧ stK.i < endIdx ∧
        syncIter c vi endIdx certification stK = (.error e, evs) ∧
        rcGo (syncRangeGo c vi endIdx neverStop 0 certification st) = (.error e, stK.bc)) := by
  intro n
  induction n with
  | zero =>
      intro st hn
      have h : ¬ st.i < endIdx := by omega
      left
      exact ⟨0, st, rfl, h, by rw [syncRangeGo_done h, rcGo_mk]⟩
  | succ n ih =>
      intro st hn
      by_cases h : st.i < endIdx
      · rcases hit : syncIter c vi endIdx certification st with ⟨ir, evs⟩
        cases ir with
        | error e =>
            right
            exact ⟨0, st, e, evs, rfl, h, hit,
              by rw [syncRangeGo_iter_err h (neverStop_false 0) hit, rcGo_mk]⟩
        | ok st2 =>
            have hlt : st.i < st2.i := syncIter_progress hit
            have hstep := ffStep c vi endIdx certification h hit
            rcases ih st2 (by omega) with ⟨k, stF, hk, hF, hrc⟩ | ⟨k, stK, e, evs2, hk, hK, hitK, hrc⟩
            · left
              refine ⟨k + 1, stF, ?_, hF, by rw [hstep]; exact hrc⟩
              simp only [iterSt, if_pos h, hit]
              exact hk
            · right
              refine ⟨k + 1, stK, e, evs2, ?_, hK, hitK, by rw [hstep]; exact hrc⟩
              simp only [iterSt, if_pos h, hit]
              exact hk
      · left
        exact ⟨0, st, rfl, h, by rw [syncRangeGo_done h, rcGo_mk]⟩

theorem try_prune_keeps (b : Blocks) (m : Option Nat) (delay : Nat)
    (hm : ∀ x, m = some x → 1 ≤ x) :
    (b.try_prune m delay).blocks.getLast? = b.blocks.getLast? ∧
    (b.try_prune m delay).lastVerified = b.lastVerified := by
  cases m with
  | none => exact ⟨rfl, rfl⟩
  | some maxB =>
      unfold Blocks.try_prune
      simp only
      by_cases hlen : maxB + delay < b.blocks.length
      · rw [if_pos hlen]
        have hmx : 1 ≤ maxB := hm maxB rfl
        have hdl : (b.blocks.drop (b.blocks.length - maxB)).length = maxB := by
          rw [List.length_drop]
          omega
        have hne : b.blocks.drop (b.blocks.length - maxB) ≠ [] := by
          intro h0
          rw [h0] at hdl
          simp at hdl
          omega
        constructor
        · simp only
          conv_rhs => rw [← List.take_append_drop (b.blocks.length - maxB) b.blocks]
          rw [List.getLast?_append_of_ne_nil _ hne]
        · rfl
      · rw [if_neg hlen]
        exact ⟨rfl, rfl⟩

theorem syncBlocks_access_none {s : Synchronizer} (stopped : Nat → Bool) (upTo : Option Nat)
    (ha : s.blocks_access = none) : syncBlocks s stopped upTo = .panics := by
  unfold syncBlocks
  rw [ha]

theorem syncBlocks_tip_err {s : Synchronizer} {a : BlocksAccess} {e : String}
    (stopped : Nat → Bool) (upTo : Option Nat)
    (ha : s.blocks_access = some a) (htip : a.query_tip = .error e) :
    syncBlocks s stopped upTo = .returns (.error e) s.blockchain [.tipQuery] := by
  simp only [syncBlocks, ha, htip]

theorem syncBlocks_noop {s : Synchronizer} {a : BlocksAccess} {t : TipOfChainRes}
    (stopped : Nat → Bool) (upTo : Option Nat)
    (ha : s.blocks_access = some a) (htip : a.query_tip = .ok t)
    (h : t.tip_index < (nextOf s.blockchain).2 ∨
      min t.tip_index (upTo.getD u64Max) < (nextOf s.blockchain).2) :
    syncBlocks s stopped upTo = .returns (.ok ()) s.blockchain [.tipQuery] := by
  simp only [syncBlocks, ha, htip]
  by_cases h1 : (nextOf s.blockchain).2 > t.tip_index
  · rw [if_pos h1]
  · rw [if_neg h1]
    have h2 : (nextOf s.blockchain).2 > min t.tip_index (upTo.getD u64Max) := by
      rcases h with h | h <;> omega
    rw [if_pos h2]

/-- The certification actually carried into the batch loop: discarded when the
effective bound is not the remote tip (lines 238-240 of the source). -/
def certOf (t : TipOfChainRes) (upTo : Option Nat) : Option Cert :=
  if min t.tip_index (upTo.getD u64Max) ≠ t.tip_index then none else t.certification

/-- The tail of `sync_blocks` after `sync_range_of_blocks` returns: propagate
an error, otherwise `blockchain.last()?.unwrap()` and `try_prune` (lines
263-270 of the source). -/
def postProcess (maxB : Option Nat) (r : Except String Unit × Blocks × List Event) :
    SyncOutcome :=
  match r.1 with
  | .error e => .returns (.error e) r.2.1 (.tipQuery :: r.2.2)
  | .ok _ =>
      match r.2.1.last with
      | none => .panics
      | some _ => .returns (.ok ()) (r.2.1.try_prune maxB PRUNE_DELAY) (.tipQuery :: r.2.2)

theorem syncBlocks_loop {s : Synchronizer} {a : BlocksAccess} {t : TipOfChainRes}
    (stopped : Nat → Bool) (upTo : Option Nat)
    (ha : s.blocks_access = some a) (htip : a.query_tip = .ok t)
    (h2 : (nextOf s.blockchain).2 ≤ min t.tip_index (upTo.getD u64Max)) :
    syncBlocks s stopped upTo =
      postProcess s.store_max_blocks
        (syncRangeGo a s.verification_info (min t.tip_index (upTo.getD u64Max) + 1) stopped 0
          (certOf t upTo) (stOf s.blockchain)) := by
  have h1 : ¬ (nextOf s.blockchain).2 > t.tip_index := by
    have := min_le_left t.tip_index (upTo.getD u64Max)
    omega
  have h2' : ¬ (nextOf s.blockchain).2 > min t.tip_index (upTo.getD u64Max) := by omega
  simp only [syncBlocks, postProcess, certOf, stOf, ha, htip, if_neg h1, if_neg h2']

theorem postProcess_err {m : Option Nat} {r : Except String Unit × Blocks × List Event}
    {e : String} (h : r.1 = .error e) :
    postProcess m r = .returns (.error e) r.2.1 (.tipQuery :: r.2.2) := by
  simp only [postProcess, h]

theorem postProcess_ok_val {m : Option Nat} {r : Except String Unit × Blocks × List Event}
    {b : HashedBlock} (h : r.1 = .ok ()) (hl : r.2.1.last = some b) :
    postProcess m r =
      .returns (.ok ()) (r.2.1.try_prune m PRUNE_DELAY) (.tipQuery :: r.2.2) := by
  simp only [postProcess, h, hl]

theorem postProcess_rc {m : Option Nat} {r r' : Except String Unit × Blocks × List Event}
    (h : rcGo r = rcGo r') : (postProcess m r).rc = (postProcess m r').rc := by
  simp only [rcGo, Prod.mk.injEq] at h
  obtain ⟨h1, h2⟩ := h
  unfold postProcess
  rw [h1, h2]
  cases hr : r'.1 with
  | error e => simp only [SyncOutcome.rc]
  | ok u =>
      cases hl : r'.2.1.last with
      | none => simp only [SyncOutcome.rc]
      | some b => simp only [SyncOutcome.rc]

theorem StInv_stOf (b : Blocks) : StInv (stOf b) := rfl

theorem iterSt_extends (c : BlocksAccess) (vi : Option VerificationInfo) (endIdx : Nat)
    (certification : Option Cert) :
    ∀ (k : Nat) (st st2 : LoopSt),
      iterSt c vi endIdx certification k st = some st2 →
      ∃ t, st2.bc.blocks = st.bc.blocks ++ t := by
  intro k
  induction k with
  | zero =>
      intro st st2 hk
      simp only [iterSt, Option.some.injEq] at hk
      exact ⟨[], by rw [← hk]; simp⟩
  | succ k ih =>
      intro st st2 hk
      simp only [iterSt] at hk
      by_cases h : st.i < endIdx
      · rw [if_pos h] at hk
        rcases hit : syncIter c vi endIdx certification st with ⟨ir, evs⟩
        rw [hit] at hk
        cases ir with
        | error e => simp at hk
        | ok st3 =>
            simp only at hk
            obtain ⟨t1, ht1⟩ := ih st3 st2 hk
            obtain ⟨hbs, _, hbc, _, _, _⟩ := syncIter_ok_spec hit
            exact ⟨hbs ++ t1, by rw [ht1, hbc, add_blocks, List.append_assoc]⟩
      · rw [if_neg h] at hk
        simp at hk

theorem chainOk_prune (b : Blocks) (m : Option Nat) (d : Nat)
    (h : chainOk b.blocks = true) : chainOk (b.try_prune m d).blocks = true := by
  unfold Blocks.try_prune
  cases m with
  | none => exact h
  | some maxB =>
      simp only
      by_cases hlen : maxB + d < b.blocks.length
      · rw [if_pos hlen]
        exact chainOk_drop _ _ h
      · rw [if_neg hlen]
        exact h

/-- Number of cancellation polls recorded in a trace. -/
def countP (tr : List Event) : Nat :=
  (tr.filter fun e => match e with | .poll _ => true | _ => false).length

/-- Number of batch fetches recorded in a trace. -/
def countF (tr : List Event) : Nat :=
  (tr.filter fun e => match e with | .fetch _ _ => true | _ => false).length

theorem countP_append (l m : List Event) : countP (l ++ m) = countP l + countP m := by
  unfold countP
  rw [List.filter_append, List.length_append]

theorem countF_append (l m : List Event) : countF (l ++ m) = countF l + countF m := by
  unfold countF
  rw [List.filter_append, List.length_append]

theorem certStep_all_cert (vi : Option VerificationInfo) (endIdx : Nat)
    (certification : Option Cert) (i hash : Nat) :
    ∀ e ∈ (certStep vi endIdx certification i hash).2, ∃ x, e = Event.certCheck x := by
  unfold certStep
  by_cases h : i = endIdx - 1
  · rw [if_pos h]
    cases vi with
    | none => intro e he; simp at he
    | some v =>
        unfold verify_block_hash
        cases certification with
        | none => intro e he; simp at he
        | some cert0 =>
            intro e he
            simp only [List.mem_singleton] at he
            exact ⟨hash, he⟩
  · rw [if_neg h]
    intro e he
    simp at he

theorem processBatch_all_cert (vi : Option VerificationInfo) (endIdx : Nat)
    (certification : Option Cert) :
    ∀ (batch : List EncodedBlock) (i : Nat) (lh : Option Nat),
      ∀ e ∈ (processBatch vi endIdx certification batch i lh).2,
        ∃ x, e = Event.certCheck x := by
  intro batch
  induction batch with
  | nil => intro i lh e he; simp [processBatch] at he
  | cons raw rest ih =>
      intro i lh e he
      simp only [processBatch] at he
      cases hdec : Block.decode raw with
      | error er => rw [hdec] at he; simp at he
      | ok block =>
          rw [hdec] at he
          by_cases hp : block.parent_hash = lh
          · simp only [hp, ne_eq, not_true_eq_false, ite_false, if_neg] at he
            rcases hchk : certStep vi endIdx certification i
                (HashedBlock.hash_block raw lh i).hash with ⟨cr, ce⟩
            rw [hchk] at he
            cases cr with
            | error er =>
                simp only at he
                have := certStep_all_cert vi endIdx certification i
                    (HashedBlock.hash_block raw lh i).hash
                rw [hchk] at this
                exact this e he
            | ok u =>
                rcases hrec : processBatch vi endIdx certification rest (i + 1)
                    (some (HashedBlock.hash_block raw lh i).hash) with ⟨rr, revs⟩
                rw [hrec] at he
                have hcs := certStep_all_cert vi endIdx certification i
                    (HashedBlock.hash_block raw lh i).hash
                rw [hchk] at hcs
                have hrs := ih (i + 1) (some (HashedBlock.hash_block raw lh i).hash)
                rw [hrec] at hrs
                cases rr with
                | error er =>
                    simp only [List.mem_append] at he
                    rcases he with he | he
                    · exact hcs e he
                    · exact hrs e he
                | ok trip =>
                    obtain ⟨hbs2, i3, lh3⟩ := trip
                    simp only [List.mem_append] at he
                    rcases he with he | he
                    · exact hcs e he
                    · exact hrs e he
          · simp [hp] at he

theorem all_cert_countP {tr : List Event}
    (h : ∀ e ∈ tr, ∃ x, e = Event.certCheck x) : countP tr = 0 := by
  unfold countP
  rw [List.length_eq_zero]
  rw [List.filter_eq_nil]
  intro e he
  obtain ⟨x, hx⟩ := h e he
  subst hx
  simp

theorem all_cert_countF {tr : List Event}
    (h : ∀ e ∈ tr, ∃ x, e = Event.certCheck x) : countF tr = 0 := by
  unfold countF
  rw [List.length_eq_zero]
  rw [List.filter_eq_nil]
  intro e he
  obtain ⟨x, hx⟩ := h e he
  subst hx
  simp

theorem syncIter_evs {c : BlocksAccess} {vi : Option VerificationInfo} {endIdx : Nat}
    {certification : Option Cert} {st : LoopSt} {r : Except String LoopSt} {evs : List Event}
    (h : syncIter c vi endIdx certification st = (r, evs)) :
    countP evs = 0 ∧ countF evs = 1 := by
  unfold syncIter at h
  cases hq : c.multi_query_blocks st.i endIdx with
  | error e =>
      rw [hq] at h
      simp only [Prod.mk.injEq] at h
      rw [← h.2]
      exact ⟨rfl, rfl⟩
  | ok batch =>
      rw [hq] at h
      by_cases hb : batch.isEmpty
      · simp only [hb, if_true, ite_true, Prod.mk.injEq] at h
        rw [← h.2]
        exact ⟨rfl, rfl⟩
      · simp only [hb, Bool.false_eq_true, if_false, ite_false] at h
        rcases hpb : processBatch vi endIdx certification batch st.i st.lh with ⟨pr, pevs⟩
        rw [hpb] at h
        have hall := processBatch_all_cert vi endIdx certification batch st.i st.lh
        rw [hpb] at hall
        have hp0 : countP pevs = 0 := all_cert_countP hall
        have hf0 : countF pevs = 0 := all_cert_countF hall
        cases pr with
        | error e =>
            simp only [Prod.mk.injEq] at h
            rw [← h.2]
            constructor
            · show countP (Event.fetch st.i endIdx :: pevs) = 0
              have : countP (Event.fetch st.i endIdx :: pevs) = countP pevs := by
                unfold countP
                simp
              rw [this, hp0]
            · show countF (Event.fetch st.i endIdx :: pevs) = 1
              have : countF (Event.fetch st.i endIdx :: pevs) = 1 + countF pevs := by
                unfold countF
                simp [List.length_cons]
                omega
              rw [this, hf0]
        | ok trip =>
            obtain ⟨hbs, i2, lh2⟩ := trip
            simp only [Prod.mk.injEq] at h
            rw [← h.2]
            constructor
            · show countP (Event.fetch st.i endIdx :: pevs) = 0
              have : countP (Event.fetch st.i endIdx :: pevs) = countP pevs := by
                unfold countP
                simp
              rw [this, hp0]
            · show countF (Event.fetch st.i endIdx :: pevs) = 1
              have : countF (Event.fetch st.i endIdx :: pevs) = 1 + countF pevs := by
                unfold countF
                simp [List.length_cons]
                omega
              rw [this, hf0]

theorem countP_cons_poll (n : Nat) (l : List Event) :
    countP (Event.poll n :: l) = countP l + 1 := by
  unfold countP
  rw [List.filter_cons]
  simp

theorem countF_cons_poll (n : Nat) (l : List Event) :
    countF (Event.poll n :: l) = countF l := by
  unfold countF
  rw [List.filter_cons]
  simp

theorem syncRangeGo_counts (c : BlocksAccess) (vi : Option VerificationInfo) (endIdx : Nat)
    (certification : Option Cert) :
    ∀ (n : Nat) (st : LoopSt) (stopped : Nat → Bool) (polls : Nat),
      endIdx - st.i ≤ n →
      (countP (syncRangeGo c vi endIdx stopped polls certification st).2.2 =
        countF (syncRangeGo c vi endIdx stopped polls certification st).2.2 ∨
       countP (syncRangeGo c vi endIdx stopped polls certification st).2.2 =
        countF (syncRangeGo c vi endIdx stopped polls certification st).2.2 + 1) := by
  intro n
  induction n with
  | zero =>
      intro st stopped polls hn
      have h : ¬ st.i < endIdx := by omega
      rw [syncRangeGo_done h]
      left
      rfl
  | succ n ih =>
      intro st stopped polls hn
      by_cases h : st.i < endIdx
      · by_cases hs : stopped polls = true
        · rw [syncRangeGo_stopped h hs]
          right
          rfl
        · rw [Bool.not_eq_true] at hs
          rcases hit : syncIter c vi endIdx certification st with ⟨ir, evs⟩
          obtain ⟨hp0, hf1⟩ := syncIter_evs hit
          cases ir with
          | error e =>
              rw [syncRangeGo_iter_err h hs hit]
              left
              simp only [countP_cons_poll, countF_cons_poll, hp0, hf1]
          | ok st2 =>
              rw [syncRangeGo_iter_ok h hs hit]
              have hlt : st.i < st2.i := syncIter_progress hit
              have := ih st2 stopped (polls + 1) (by omega)
              simp only [countP_cons_poll, countF_cons_poll, countP_append, countF_append,
                hp0, hf1]
              rcases this with heq | heq
              · left
                omega
              · right
                omega
      · rw [syncRangeGo_done h]
        left
        rfl

theorem certStep_nocert (vi : Option VerificationInfo) (endIdx i hash : Nat) :
    certStep vi endIdx none i hash = (.ok (), []) := by
  unfold certStep
  by_cases h : i = endIdx - 1
  · rw [if_pos h]
    cases vi with
    | none => rfl
    | some v => rfl
  · rw [if_neg h]

theorem processBatch_nocert (vi : Option VerificationInfo) (endIdx : Nat) :
    ∀ (batch : List EncodedBlock) (i : Nat) (lh : Option Nat),
      (processBatch vi endIdx none batch i lh).2 = [] := by
  intro batch
  induction batch with
  | nil => intro i lh; rfl
  | cons raw rest ih =>
      intro i lh
      simp only [processBatch]
      cases hdec : Block.decode raw with
      | error e => rfl
      | ok block =>
          by_cases hp : block.parent_hash = lh
          · simp only [hp, ne_eq, not_true_eq_false, ite_false, if_neg]
            rw [certStep_nocert]
            rcases hrec : processBatch vi endIdx none rest (i + 1)
                (some (HashedBlock.hash_block raw lh i).hash) with ⟨rr, revs⟩
            have : revs = [] := by
              have := ih (i + 1) (some (HashedBlock.hash_block raw lh i).hash)
              rw [hrec] at this
              exact this
            subst this
            cases rr with
            | error e => simp
            | ok trip => obtain ⟨a1, a2, a3⟩ := trip; simp
          · simp [hp]

theorem syncIter_nocert (c : BlocksAccess) (vi : Option VerificationInfo) (endIdx : Nat)
    (st : LoopSt) : (syncIter c vi endIdx none st).2 = [.fetch st.i endIdx] := by
  unfold syncIter
  cases hq : c.multi_query_blocks st.i endIdx with
  | error e => rfl
  | ok batch =>
      by_cases hb : batch.isEmpty
      · simp [hb]
      · simp only [hb, Bool.false_eq_true, if_false, ite_false]
        rcases hpb : processBatch vi endIdx none batch st.i st.lh with ⟨pr, pevs⟩
        have : pevs = [] := by
          have := processBatch_nocert vi endIdx batch st.i st.lh
          rw [hpb] at this
          exact this
        subst this
        cases pr with
        | error e => rfl
        | ok trip => obtain ⟨a1, a2, a3⟩ := trip; rfl

theorem syncRangeGo_nocert (c : BlocksAccess) (vi : Option VerificationInfo) (endIdx : Nat) :
    ∀ (n : Nat) (st : LoopSt) (stopped : Nat → Bool) (polls : Nat),
      endIdx - st.i ≤ n →
      ∀ x, Event.certCheck x ∉ (syncRangeGo c vi endIdx stopped polls none st).2.2 := by
  intro n
  induction n with
  | zero =>
      intro st stopped polls hn x
      have h : ¬ st.i < endIdx := by omega
      rw [syncRangeGo_done h]
      simp
  | succ n ih =>
      intro st stopped polls hn x
      by_cases h : st.i < endIdx
      · by_cases hs : stopped polls = true
        · rw [syncRangeGo_stopped h hs]
          simp
        · rw [Bool.not_eq_true] at hs
          rcases hit : syncIter c vi endIdx none st with ⟨ir, evs⟩
          have hevs : evs = [.fetch st.i endIdx] := by
            have := syncIter_nocert c vi endIdx st
            rw [hit] at this
            exact this
          cases ir with
          | error e =>
              rw [syncRangeGo_iter_err h hs hit, hevs]
              simp
          | ok st2 =>
              rw [syncRangeGo_iter_ok h hs hit, hevs]
              have hlt : st.i < st2.i := syncIter_progress hit
              have := ih st2 stopped (polls + 1) (by omega) x
              simp only [List.mem_cons, List.mem_append, List.mem_singleton]
              push_neg
              refine ⟨by simp, by simp, this⟩
      · rw [syncRangeGo_done h]
        simp

/-! Concrete fixtures used by the witnesses and counterexamples. -/

def eb0 : EncodedBlock := { hashVal := 1, decoded := some { parent_hash := none }, decodeErr := "" }

def eb1 : EncodedBlock := { hashVal := 2, decoded := some { parent_hash := some 1 }, decodeErr := "" }

def ebBad : EncodedBlock :=
  { hashVal := 3, decoded := some { parent_hash := some 99 }, decodeErr := "" }

def hb0 : HashedBlock := HashedBlock.hash_block eb0 none 0

def hb1 : HashedBlock := HashedBlock.hash_block eb1 (some 1) 1

def emptyChain : Blocks := { blocks := [], lastVerified := none }

def oneChain : Blocks := { blocks := [hb0], lastVerified := some 0 }

def caTipErr : BlocksAccess :=
  { query_raw_block := fun _ => .error "unreachable",
    query_tip := .error "tip unavailable",
    multi_query_blocks := fun _ _ => .error "unreachable" }

def sTipErr : Synchronizer :=
  { blockchain := emptyChain, blocks_access := some caTipErr,
    store_max_blocks := none, verification_info := none }

def sNoAccess : Synchronizer :=
  { blockchain := emptyChain, blocks_access := none,
    store_max_blocks := none, verification_info := none }

def caTip0 : BlocksAccess :=
  { query_raw_block := fun _ => .ok none,
    query_tip := .ok { tip_index := 0, certification := none },
    multi_query_blocks := fun _ _ => .error "no batch" }

def sOne : Synchronizer :=
  { blockchain := oneChain, blocks_access := some caTip0,
    store_max_blocks := none, verification_info := none }

def caTwo : BlocksAccess :=
  { query_raw_block := fun n => .ok (([eb0, eb1]).get? n),
    query_tip := .ok { tip_index := 1, certification := none },
    multi_query_blocks := fun lo hi => .ok ((([eb0, eb1]).drop lo).take (hi - lo)) }

def sTwo : Synchronizer :=
  { blockchain := emptyChain, blocks_access := some caTwo,
    store_max_blocks := none, verification_info := none }

def twoChain : Blocks := { blocks := [hb0, hb1], lastVerified := some 1 }

/-- Evaluation of a full two-block catch-up sync on the concrete fixture:
both blocks are fetched in one batch, verified, appended, and the watermark is
set to height 1. -/
theorem twoBlockRun :
    syncBlocks sTwo neverStop none =
      .returns (.ok ()) twoChain [Event.tipQuery, Event.poll 0, Event.fetch 0 2] := by
  have hnext : (nextOf sTwo.blockchain).2 ≤
      min (1 : Nat) ((none : Option Nat).getD u64Max) := by decide
  rw [syncBlocks_loop neverStop none rfl rfl hnext]
  have h1 : (stOf sTwo.blockchain).i <
      min (1 : Nat) ((none : Option Nat).getD u64Max) + 1 := by decide
  have hit1 : syncIter caTwo sTwo.verification_info
      (min (1 : Nat) ((none : Option Nat).getD u64Max) + 1)
      (certOf { tip_index := 1, certification := none } none) (stOf sTwo.blockchain) =
      (.ok { i := 2, lh := some 2, bc := { blocks := [hb0, hb1], lastVerified := none } },
       [Event.fetch 0 2]) := rfl
  rw [syncRangeGo_iter_ok h1 rfl hit1]
  rw [syncRangeGo_done (by decide :
    ¬ ({ i := 2, lh := some 2,
         bc := { blocks := [hb0, hb1], lastVerified := none } } : LoopSt).i <
      min (1 : Nat) ((none : Option Nat).getD u64Max) + 1)]
  rfl

/-- C10: a synchronizer constructed without a remote-access handle
(`blocks_access = None`) panics on any `sync_blocks` call — the
`self.blocks_access.as_ref().unwrap()` on line 212 of the source — instead of
returning an error, so a non-panicking `sync_blocks` call requires a
configured remote-access handle. -/
theorem c10_sync_blocks_panics_without_access (s : Synchronizer) (stopped : Nat → Bool)
    (upTo : Option Nat) (ha : s.blocks_access = none) :
    syncBlocks s stopped upTo = .panics :=
  syncBlocks_access_none stopped upTo ha

theorem c10_witness : syncBlocks sNoAccess neverStop none = .panics :=
  c10_sync_blocks_panics_without_access sNoAccess neverStop none rfl

/-- C6: when the remote tip is behind the local next expected height, or the
effective upper bound is below it, `sync_blocks` returns `Ok`, leaves the
store unchanged, and its trace is just the tip query — in particular
`multi_query_blocks` is never invoked (no `fetch` event occurs). -/
theorem c6_lagging_or_bounded_noop (s : Synchronizer) (a : BlocksAccess) (t : TipOfChainRes)
    (stopped : Nat → Bool) (upTo : Option Nat)
    (ha : s.blocks_access = some a) (htip : a.query_tip = .ok t)
    (h : t.tip_index < (nextOf s.blockchain).2 ∨
      min t.tip_index (upTo.getD u64Max) < (nextOf s.blockchain).2) :
    syncBlocks s stopped upTo = .returns (.ok ()) s.blockchain [.tipQuery] ∧
    ∀ res chain tr, syncBlocks s stopped upTo = .returns res chain tr →
      ∀ lo hi, Event.fetch lo hi ∉ tr := by
  have h0 := syncBlocks_noop stopped upTo ha htip h
  refine ⟨h0, ?_⟩
  intro res chain tr hrun lo hi
  rw [h0] at hrun
  cases hrun
  simp

theorem c6_witness :
    syncBlocks sOne neverStop none = .returns (.ok ()) sOne.blockchain [Event.tipQuery] :=
  (c6_lagging_or_bounded_noop sOne caTip0 { tip_index := 0, certification := none }
    neverStop none rfl rfl (Or.inl (by decide))).1

def hb5 : HashedBlock := { block := eb0, hash := 7, parent_hash := some 6, index := 5 }

def prunedNoGenesis : Blocks := { blocks := [hb5], lastVerified := some 5 }

/-- C2 counterexample: a store with no block at height 0 whose first-block
lookup returns a block at height 5.  Contrary to the claim, `verify_store`
(lines 132-137 of the source) REJECTS this state with the internal error
"Snapshot found, but genesis block not present in the store", so construction
fails for exactly that reason. -/
theorem c2_counterexample :
    prunedNoGenesis.get_at 0 = .error (.NotFound 0) ∧
    prunedNoGenesis.first = some hb5 ∧ 0 < hb5.index ∧
    verify_store prunedNoGenesis caTip0 =
      .returns (.error "Snapshot found, but genesis block not present in the store") :=
  ⟨rfl, rfl, by decide, rfl⟩

/-- C2 amended: at construction time, a local store that has no block at
height 0 while its first-block lookup returns a block is REJECTED:
`verify_store` fails with the internal error "Snapshot found, but genesis
block not present in the store".  (The accepted pruned-snapshot state is one
whose store still answers `get_at(0)` with a genesis block matching the
remote; only an entirely empty store passes the check without a genesis.) -/
theorem c2_amended_missing_genesis_rejected (b : Blocks) (ca : BlocksAccess)
    (h0 : b.get_at 0 = .error (.NotFound 0)) (hf : b.first.isSome = true) :
    verify_store b ca =
      .returns (.error "Snapshot found, but genesis block not present in the store") := by
  simp only [verify_store, h0, hf, if_true]

theorem c2_amended_witness :
    verify_store prunedNoGenesis caTip0 =
      .returns (.error "Snapshot found, but genesis block not present in the store") :=
  c2_amended_missing_genesis_rejected prunedNoGenesis caTip0 rfl rfl

def vi0 : VerificationInfo := { verify := fun _ _ => true }

def caNoTipBlock : BlocksAccess :=
  { query_raw_block := fun _ => .ok none,
    query_tip := .ok { tip_index := 5, certification := some [1] },
    multi_query_blocks := fun _ _ => .error "x" }

/-- C5 counterexample: with a verification key configured and a remote that
reports tip height 5 but answers the tip-block query with "no block", the
construction-time consistency phase does not surface the failure as an `Err`
to the caller of `new`: it panics (the `.expect` on line 193 of the source).
So not every failure of that phase is propagated as a construction error
result. -/
theorem c5_counterexample :
    newSynchronizer (some caNoTipBlock) emptyChain none (some vi0) =
      .panics "Blockchain in the ledger canister is empty" := rfl

theorem newSynchronizer_some_none (a : BlocksAccess) (init : Blocks) (m : Option Nat) :
    newSynchronizer (some a) init m none =
      (match verify_store init a with
       | .panics msg => .panics msg
       | .returns (.error e) => .returns (.error e)
       | .returns (.ok _) =>
           .returns (.ok { blockchain := init.try_prune m PRUNE_DELAY,
                           blocks_access := some a, store_max_blocks := m,
                           verification_info := none })) := rfl

theorem newSynchronizer_some_some (a : BlocksAccess) (init : Blocks) (m : Option Nat)
    (v : VerificationInfo) :
    newSynchronizer (some a) init m (some v) =
      (match verify_store init a with
       | .panics msg => .panics msg
       | .returns (.error e) => .returns (.error e)
       | .returns (.ok _) =>
           match verify_tip_of_chain a v with
           | .panics msg => .panics msg
           | .returns (.error e) => .returns (.error e)
           | .returns (.ok _) =>
               .returns (.ok { blockchain := init.try_prune m PRUNE_DELAY,
                               blocks_access := some a, store_max_blocks := m,
                               verification_info := some v })) := rfl

/-- C5 amended: every `Err` result arising in the construction-time
consistency phase (store verification, tip certification fetch and
verification) is propagated verbatim to the caller of `new`, and a
synchronizer is returned only if every configured check passed — but when the
remote answers the genesis or tip block query with "no block", `new` panics
(`.expect`) instead of returning an `Err`. -/
theorem c5_amended_error_results_propagate (a : BlocksAccess) (init : Blocks)
    (m : Option Nat) (vi : Option VerificationInfo) :
    (∀ s2, newSynchronizer (some a) init m vi = .returns (.ok s2) →
      verify_store init a = .returns (.ok ()) ∧
      ∀ v, vi = some v → verify_tip_of_chain a v = .returns (.ok ())) ∧
    (∀ e, verify_store init a = .returns (.error e) →
      newSynchronizer (some a) init m vi = .returns (.error e)) ∧
    (∀ v e, vi = some v → verify_store init a = .returns (.ok ()) →
      verify_tip_of_chain a v = .returns (.error e) →
      newSynchronizer (some a) init m vi = .returns (.error e)) := by
  refine ⟨?_, ?_, ?_⟩
  · intro s2 hok
    cases vi with
    | none =>
        rw [newSynchronizer_some_none] at hok
        refine ⟨?_, by intro v hv; cases hv⟩
        split at hok
        · exact POutcome.noConfusion hok
        · simp at hok
        · rename_i u heq
          rw [heq]
    | some v =>
        rw [newSynchronizer_some_some] at hok
        split at hok
        · exact POutcome.noConfusion hok
        · simp at hok
        · rename_i u heq
          split at hok
          · exact POutcome.noConfusion hok
          · simp at hok
          · rename_i u2 heq2
            refine ⟨by rw [heq], ?_⟩
            intro v2 hv2
            cases hv2
            rw [heq2]
  · intro e hvs
    cases vi with
    | none => rw [newSynchronizer_some_none, hvs]
    | some v => rw [newSynchronizer_some_some, hvs]
  · intro v e hv hvs hvt
    subst hv
    rw [newSynchronizer_some_some, hvs, hvt]

def caWrongGenesis : BlocksAccess :=
  { query_raw_block := fun _ => .ok (some eb1),
    query_tip := .error "t",
    multi_query_blocks := fun _ _ => .error "x" }

def genesisChain : Blocks := { blocks := [hb0], lastVerified := none }

theorem c5_amended_witness :
    newSynchronizer (some caWrongGenesis) genesisChain none none =
      .returns (.error (genesisMismatchMsg 1 2)) :=
  (c5_amended_error_results_propagate caWrongGenesis genesisChain none none).2.1
    (genesisMismatchMsg 1 2) rfl

/-- C1: the chain-link invariant (every pair of adjacent stored blocks linked
by parent hash and by consecutive heights, `chainOk`) is preserved by every
`sync_blocks` run, whatever its result: each fetched block's decoded parent
hash is checked against the running `last_block_hash` (initialized from the
pre-batch local tip) and a violating block aborts the call before its batch
is appended, so the store only ever holds a hash-linked chain. -/
theorem c1_chain_link_invariant (s : Synchronizer) (stopped : Nat → Bool)
    (upTo : Option Nat) (res : Except String Unit) (chain : Blocks) (tr : List Event)
    (hok : chainOk s.blockchain.blocks = true)
    (hrun : syncBlocks s stopped upTo = .returns res chain tr) :
    chainOk chain.blocks = true := by
  cases ha : s.blocks_access with
  | none => rw [syncBlocks_access_none stopped upTo ha] at hrun; cases hrun
  | some a =>
      cases htip : a.query_tip with
      | error e =>
          rw [syncBlocks_tip_err stopped upTo ha htip] at hrun
          cases hrun
          exact hok
      | ok t =>
          by_cases hno : t.tip_index < (nextOf s.blockchain).2 ∨
              min t.tip_index (upTo.getD u64Max) < (nextOf s.blockchain).2
          · rw [syncBlocks_noop stopped upTo ha htip hno] at hrun
            cases hrun
            exact hok
          · push_neg at hno
            have hnext : (nextOf s.blockchain).2 ≤ min t.tip_index (upTo.getD u64Max) :=
              hno.2
            rw [syncBlocks_loop stopped upTo ha htip hnext] at hrun
            have hchain : chainOk (syncRangeGo a s.verification_info
                (min t.tip_index (upTo.getD u64Max) + 1) stopped 0 (certOf t upTo)
                (stOf s.blockchain)).2.1.blocks = true :=
              chainOk_syncRangeGo a s.verification_info
                (min t.tip_index (upTo.getD u64Max) + 1) (certOf t upTo)
                (min t.tip_index (upTo.getD u64Max) + 1 - (stOf s.blockchain).i)
                (stOf s.blockchain) stopped 0 le_rfl hok (StInv_stOf s.blockchain)
            cases hres : (syncRangeGo a s.verification_info
                (min t.tip_index (upTo.getD u64Max) + 1) stopped 0 (certOf t upTo)
                (stOf s.blockchain)).1 with
            | error e =>
                rw [postProcess_err hres] at hrun
                cases hrun
                exact hchain
            | ok u =>
                cases hlast : (syncRangeGo a s.verification_info
                    (min t.tip_index (upTo.getD u64Max) + 1) stopped 0 (certOf t upTo)
                    (stOf s.blockchain)).2.1.last with
                | none =>
                    have hpp : postProcess s.store_max_blocks (syncRangeGo a
                        s.verification_info (min t.tip_index (upTo.getD u64Max) + 1)
                        stopped 0 (certOf t upTo) (stOf s.blockchain)) = .panics := by
                      simp only [postProcess, hres, hlast]
                    rw [hpp] at hrun
                    cases hrun
                | some b =>
                    rw [postProcess_ok_val hres hlast] at hrun
                    cases hrun
                    exact chainOk_prune _ _ _ hchain

theorem c1_witness : chainOk twoChain.blocks = true :=
  c1_chain_link_invariant sTwo neverStop none (.ok ()) twoChain
    [Event.tipQuery, Event.poll 0, Event.fetch 0 2] (by decide) twoBlockRun

/-- C3: when `sync_blocks` is called with an upper bound strictly below the
remote tip height, the fetched certification is discarded (line 239 of the
source) and no certification check is attempted anywhere in the call — the
run's trace contains no `certCheck` event — even if the tip query returned a
certification and a verification key is configured. -/
theorem c3_no_cert_check_below_tip (s : Synchronizer) (a : BlocksAccess) (t : TipOfChainRes)
    (stopped : Nat → Bool) (u : Nat) (res : Except String Unit) (chain : Blocks)
    (tr : List Event)
    (ha : s.blocks_access = some a) (htip : a.query_tip = .ok t)
    (hu : u < t.tip_index)
    (hrun : syncBlocks s stopped (some u) = .returns res chain tr) :
    ∀ x, Event.certCheck x ∉ tr := by
  intro x
  have hmin : min t.tip_index ((some u : Option Nat).getD u64Max) = u := by
    simp only [Option.getD]
    omega
  have hcert : certOf t (some u) = none := by
    unfold certOf
    rw [hmin]
    rw [if_pos (by omega)]
  by_cases hno : t.tip_index < (nextOf s.blockchain).2 ∨
      min t.tip_index ((some u : Option Nat).getD u64Max) < (nextOf s.blockchain).2
  · rw [syncBlocks_noop stopped (some u) ha htip hno] at hrun
    cases hrun
    simp
  · push_neg at hno
    rw [syncBlocks_loop stopped (some u) ha htip hno.2] at hrun
    rw [hcert] at hrun
    have hnc : Event.certCheck x ∉ (syncRangeGo a s.verification_info
        (min t.tip_index ((some u : Option Nat).getD u64Max) + 1) stopped 0 none
        (stOf s.blockchain)).2.2 :=
      syncRangeGo_nocert a s.verification_info
        (min t.tip_index ((some u : Option Nat).getD u64Max) + 1)
        (min t.tip_index ((some u : Option Nat).getD u64Max) + 1 - (stOf s.blockchain).i)
        (stOf s.blockchain) stopped 0 le_rfl x
    cases hres : (syncRangeGo a s.verification_info
        (min t.tip_index ((some u : Option Nat).getD u64Max) + 1) stopped 0 none
        (stOf s.blockchain)).1 with
    | error e =>
        rw [postProcess_err hres] at hrun
        cases hrun
        simp only [List.mem_cons]
        push_neg
        exact ⟨by simp, hnc⟩
    | ok v =>
        cases hlast : (syncRangeGo a s.verification_info
            (min t.tip_index ((some u : Option Nat).getD u64Max) + 1) stopped 0 none
            (stOf s.blockchain)).2.1.last with
        | none =>
            have hpp : postProcess s.store_max_blocks (syncRangeGo a s.verification_info
                (min t.tip_index ((some u : Option Nat).getD u64Max) + 1) stopped 0 none
                (stOf s.blockchain)) = .panics := by
              simp only [postProcess, hres, hlast]
            rw [hpp] at hrun
            cases hrun
        | some b =>
            rw [postProcess_ok_val hres hlast] at hrun
            cases hrun
            simp only [List.mem_cons]
            push_neg
            exact ⟨by simp, hnc⟩

def caC3 : BlocksAccess :=
  { query_raw_block := fun _ => .ok none,
    query_tip := .ok { tip_index := 5, certification := some [2] },
    multi_query_blocks := fun _ _ => .error "boom" }

def sC3 : Synchronizer :=
  { blockchain := emptyChain, blocks_access := some caC3,
    store_max_blocks := none, verification_info := some vi0 }

theorem c3_witness_run :
    syncBlocks sC3 neverStop (some 3) =
      .returns (.error "boom") emptyChain [Event.tipQuery, Event.poll 0, Event.fetch 0 4] := by
  rw [syncBlocks_loop neverStop (some 3) rfl rfl (by decide)]
  have h1 : (stOf sC3.blockchain).i <
      min (5 : Nat) ((some 3 : Option Nat).getD u64Max) + 1 := by decide
  have hit : syncIter caC3 sC3.verification_info
      (min (5 : Nat) ((some 3 : Option Nat).getD u64Max) + 1)
      (certOf { tip_index := 5, certification := some [2] } (some 3))
      (stOf sC3.blockchain) = (.error "boom", [Event.fetch 0 4]) := rfl
  rw [syncRangeGo_iter_err h1 rfl hit]
  rfl

theorem c3_witness :
    Event.certCheck 2 ∉ ([Event.tipQuery, Event.poll 0, Event.fetch 0 4] : List Event) :=
  c3_no_cert_check_below_tip sC3 caC3 { tip_index := 5, certification := some [2] }
    neverStop 3 (.error "boom") emptyChain
    [Event.tipQuery, Event.poll 0, Event.fetch 0 4] rfl rfl (by decide) c3_witness_run 2

/-- C8: if at any reachable batch iteration of a `sync_blocks` call the
remote's `multi_query_blocks` returns an empty vector although the requested
range `[cursor, range.end)` is non-empty, the call fails with the
"batch result empty" error (lines 311-316 of the source) and the store is
left exactly as it was at that iteration — no append happens there. -/
theorem c8_empty_batch_fails (s : Synchronizer) (a : BlocksAccess) (t : TipOfChainRes)
    (upTo : Option Nat) (k : Nat) (stK : LoopSt)
    (ha : s.blocks_access = some a) (htip : a.query_tip = .ok t)
    (hnext : (nextOf s.blockchain).2 ≤ min t.tip_index (upTo.getD u64Max))
    (hk : iterSt a s.verification_info (min t.tip_index (upTo.getD u64Max) + 1)
      (certOf t upTo) k (stOf s.blockchain) = some stK)
    (hlt : stK.i < min t.tip_index (upTo.getD u64Max) + 1)
    (hfetch : a.multi_query_blocks stK.i (min t.tip_index (upTo.getD u64Max) + 1) = .ok []) :
    ∃ tr, syncBlocks s neverStop upTo =
      .returns (.error (emptyBatchMsg stK.i (min t.tip_index (upTo.getD u64Max) + 1)))
        stK.bc tr := by
  rw [syncBlocks_loop neverStop upTo ha htip hnext]
  have hit : syncIter a s.verification_info (min t.tip_index (upTo.getD u64Max) + 1)
      (certOf t upTo) stK =
      (.error (emptyBatchMsg stK.i (min t.tip_index (upTo.getD u64Max) + 1)),
       [.fetch stK.i (min t.tip_index (upTo.getD u64Max) + 1)]) := by
    unfold syncIter
    rw [hfetch]
    simp
  have h0 : rcGo (syncRangeGo a s.verification_info
      (min t.tip_index (upTo.getD u64Max) + 1) neverStop 0 (certOf t upTo)
      (stOf s.blockchain)) =
      (.error (emptyBatchMsg stK.i (min t.tip_index (upTo.getD u64Max) + 1)), stK.bc) := by
    rw [ffrun_iter a s.verification_info (min t.tip_index (upTo.getD u64Max) + 1)
      (certOf t upTo) k (stOf s.blockchain) stK hk]
    rw [syncRangeGo_iter_err hlt rfl hit]
    rfl
  simp only [rcGo, Prod.mk.injEq] at h0
  obtain ⟨hres, hbc⟩ := h0
  refine ⟨Event.tipQuery :: (syncRangeGo a s.verification_info
      (min t.tip_index (upTo.getD u64Max) + 1) neverStop 0 (certOf t upTo)
      (stOf s.blockchain)).2.2, ?_⟩
  rw [postProcess_err hres, hbc]

def caC8 : BlocksAccess :=
  { query_raw_block := fun _ => .ok none,
    query_tip := .ok { tip_index := 0, certification := none },
    multi_query_blocks := fun _ _ => .ok [] }

def sC8 : Synchronizer :=
  { blockchain := emptyChain, blocks_access := some caC8,
    store_max_blocks := none, verification_info := none }

theorem c8_witness :
    ∃ tr, syncBlocks sC8 neverStop none =
      .returns (.error (emptyBatchMsg 0 1)) emptyChain tr :=
  c8_empty_batch_fails sC8 caC8 { tip_index := 0, certification := none } none 0
    (stOf emptyChain) rfl rfl (by decide) rfl (by decide) rfl

theorem processBatch_append (vi : Option VerificationInfo) (endIdx : Nat)
    (cert : Option Cert) :
    ∀ (pre suf : List EncodedBlock) (i : Nat) (lh : Option Nat) hbsP j rhJ evsP,
      processBatch vi endIdx cert pre i lh = (.ok (hbsP, j, rhJ), evsP) →
      processBatch vi endIdx cert (pre ++ suf) i lh =
        (match processBatch vi endIdx cert suf j rhJ with
         | (.ok (hbs2, i2, lh2), evs2) => (.ok (hbsP ++ hbs2, i2, lh2), evsP ++ evs2)
         | (.error e, evs2) => (.error e, evsP ++ evs2)) := by
  intro pre
  induction pre with
  | nil =>
      intro suf i lh hbsP j rhJ evsP h
      simp only [processBatch, Prod.mk.injEq, Except.ok.injEq] at h
      obtain ⟨⟨h1, h2, h3⟩, h4⟩ := h
      subst h1; subst h2; subst h3; subst h4
      simp only [List.nil_append]
      rcases hs : processBatch vi endIdx cert suf i lh with ⟨rr, evs⟩
      cases rr with
      | error e => simp
      | ok trip => obtain ⟨x, y, z⟩ := trip; simp
  | cons raw rest ih =>
      intro suf i lh hbsP j rhJ evsP h
      simp only [processBatch] at h
      rw [List.cons_append]
      simp only [processBatch]
      cases hdec : Block.decode raw with
      | error e => rw [hdec] at h; simp at h
      | ok block =>
          rw [hdec] at h
          simp only
          by_cases hp : block.parent_hash = lh
          · simp only [hp, ne_eq, not_true_eq_false, ite_false, if_neg] at h ⊢
            rcases hchk : certStep vi endIdx cert i
                (HashedBlock.hash_block raw lh i).hash with ⟨cr, ce⟩
            rw [hchk] at h
            cases cr with
            | error e => simp at h
            | ok u =>
                rcases hrec : processBatch vi endIdx cert rest (i + 1)
                    (some (HashedBlock.hash_block raw lh i).hash) with ⟨rr, revs⟩
                rw [hrec] at h
                cases rr with
                | error e => simp at h
                | ok trip =>
                    obtain ⟨hbs', i2', lh2'⟩ := trip
                    simp only [Prod.mk.injEq, Except.ok.injEq] at h
                    obtain ⟨⟨hh, hji, hrh⟩, hev⟩ := h
                    subst hh; subst hji; subst hrh; subst hev
                    rw [ih suf (i + 1) (some (HashedBlock.hash_block raw lh i).hash)
                        hbs' i2' lh2' revs hrec]
                    rcases hs : processBatch vi endIdx cert suf i2' lh2' with ⟨rr2, evs2⟩
                    cases rr2 with
                    | error e => simp
                    | ok trip2 =>
                        obtain ⟨x, y, z⟩ := trip2
                        simp
          · simp [hp] at h

theorem processBatch_mismatch_head (vi : Option VerificationInfo) (endIdx : Nat)
    (cert : Option Cert) (rb : EncodedBlock) (rest : List EncodedBlock) (j : Nat)
    (rhJ : Option Nat) (b : Block)
    (hdec : Block.decode rb = .ok b) (hmis : b.parent_hash ≠ rhJ) :
    processBatch vi endIdx cert (rb :: rest) j rhJ =
      (.error (parentMismatchMsg j rhJ b.parent_hash), []) := by
  simp only [processBatch, hdec]
  rw [if_pos hmis]

/-- C4: a fetched block whose decoded parent hash differs from the running
chain-tip hash makes `sync_blocks` fail with the error message built from
both the expected (running `last_block_hash`) and the observed (decoded)
parent hash; no block of the batch containing the mismatch — not even the
well-linked blocks preceding the offender in that batch — is appended, and
everything committed by earlier completed batch iterations of the same call
remains in the store. -/
theorem c4_parent_mismatch (s : Synchronizer) (a : BlocksAccess) (t : TipOfChainRes)
    (upTo : Option Nat) (k : Nat) (stK : LoopSt) (pre rest : List EncodedBlock)
    (rb : EncodedBlock) (hbsP : List HashedBlock) (j : Nat) (rhJ : Option Nat)
    (evsP : List Event) (b : Block)
    (ha : s.blocks_access = some a) (htip : a.query_tip = .ok t)
    (hnext : (nextOf s.blockchain).2 ≤ min t.tip_index (upTo.getD u64Max))
    (hk : iterSt a s.verification_info (min t.tip_index (upTo.getD u64Max) + 1)
      (certOf t upTo) k (stOf s.blockchain) = some stK)
    (hlt : stK.i < min t.tip_index (upTo.getD u64Max) + 1)
    (hfetch : a.multi_query_blocks stK.i (min t.tip_index (upTo.getD u64Max) + 1) =
      .ok (pre ++ rb :: rest))
    (hpre : processBatch s.verification_info (min t.tip_index (upTo.getD u64Max) + 1)
      (certOf t upTo) pre stK.i stK.lh = (.ok (hbsP, j, rhJ), evsP))
    (hdec : Block.decode rb = .ok b)
    (hmis : b.parent_hash ≠ rhJ) :
    (∃ tr, syncBlocks s neverStop upTo =
      .returns (.error (parentMismatchMsg j rhJ b.parent_hash)) stK.bc tr) ∧
    ∃ tl, stK.bc.blocks = s.blockchain.blocks ++ tl := by
  refine ⟨?_, iterSt_extends a s.verification_info
    (min t.tip_index (upTo.getD u64Max) + 1) (certOf t upTo) k (stOf s.blockchain) stK hk⟩
  rw [syncBlocks_loop neverStop upTo ha htip hnext]
  have hbatch : processBatch s.verification_info
      (min t.tip_index (upTo.getD u64Max) + 1) (certOf t upTo) (pre ++ rb :: rest)
      stK.i stK.lh = (.error (parentMismatchMsg j rhJ b.parent_hash), evsP) := by
    rw [processBatch_append s.verification_info (min t.tip_index (upTo.getD u64Max) + 1)
      (certOf t upTo) pre (rb :: rest) stK.i stK.lh hbsP j rhJ evsP hpre]
    rw [processBatch_mismatch_head s.verification_info
      (min t.tip_index (upTo.getD u64Max) + 1) (certOf t upTo) rb rest j rhJ b hdec hmis]
    simp
  have hit : syncIter a s.verification_info (min t.tip_index (upTo.getD u64Max) + 1)
      (certOf t upTo) stK =
      (.error (parentMismatchMsg j rhJ b.parent_hash),
       .fetch stK.i (min t.tip_index (upTo.getD u64Max) + 1) :: evsP) := by
    unfold syncIter
    rw [hfetch]
    have hne : (pre ++ rb :: rest).isEmpty = false := by
      cases pre <;> rfl
    simp only [hne, Bool.false_eq_true, if_false, ite_false]
    rw [hbatch]
  have h0 : rcGo (syncRangeGo a s.verification_info
      (min t.tip_index (upTo.getD u64Max) + 1) neverStop 0 (certOf t upTo)
      (stOf s.blockchain)) =
      (.error (parentMismatchMsg j rhJ b.parent_hash), stK.bc) := by
    rw [ffrun_iter a s.verification_info (min t.tip_index (upTo.getD u64Max) + 1)
      (certOf t upTo) k (stOf s.blockchain) stK hk]
    rw [syncRangeGo_iter_err hlt rfl hit]
    rfl
  simp only [rcGo, Prod.mk.injEq] at h0
  obtain ⟨hres, hbc⟩ := h0
  refine ⟨Event.tipQuery :: (syncRangeGo a s.verification_info
      (min t.tip_index (upTo.getD u64Max) + 1) neverStop 0 (certOf t upTo)
      (stOf s.blockchain)).2.2, ?_⟩
  rw [postProcess_err hres, hbc]

def caC4 : BlocksAccess :=
  { query_raw_block := fun _ => .ok none,
    query_tip := .ok { tip_index := 1, certification := none },
    multi_query_blocks := fun lo _ => if lo = 0 then .ok [eb0] else .ok [ebBad] }

def sC4 : Synchronizer :=
  { blockchain := emptyChain, blocks_access := some caC4,
    store_max_blocks := none, verification_info := none }

theorem c4_witness :
    (∃ tr, syncBlocks sC4 neverStop none =
      .returns (.error (parentMismatchMsg 1 (some 1) (some 99)))
        { blocks := [hb0], lastVerified := none } tr) ∧
    ∃ tl, ([hb0] : List HashedBlock) = [] ++ tl :=
  c4_parent_mismatch sC4 caC4 { tip_index := 1, certification := none } none 1
    { i := 1, lh := some 1, bc := { blocks := [hb0], lastVerified := none } }
    [] [] ebBad [] 1 (some 1) [] { parent_hash := some 99 }
    rfl rfl (by decide) rfl (by decide) rfl rfl rfl (by decide)

theorem countP_cons_tip (l : List Event) : countP (Event.tipQuery :: l) = countP l := by
  unfold countP
  rw [List.filter_cons]
  simp

theorem countF_cons_tip (l : List Event) : countF (Event.tipQuery :: l) = countF l := by
  unfold countF
  rw [List.filter_cons]
  simp

/-- The loop's response to a cancellation flag first raised at the `N`-th
poll, for an arbitrary schedule: if the first `N` polls read `false`, the
`N`-th reads `true`, and `N` whole batch iterations run (the cursor still
below the bound at each), the loop stops at that poll with the "Interrupted"
error and returns exactly the state left by those `N` fully-committed
batches. -/
theorem stop_at_poll (c : BlocksAccess) (vi : Option VerificationInfo) (endIdx : Nat)
    (cert : Option Cert) (stopped : Nat → Bool) :
    ∀ (d : Nat) (st : LoopSt) (p : Nat),
      (∀ k, p ≤ k → k < p + d → stopped k = false) → stopped (p + d) = true →
      ∀ stN, iterSt c vi endIdx cert d st = some stN → stN.i < endIdx →
      rcGo (syncRangeGo c vi endIdx stopped p cert st) =
        (.error "Interrupted", stN.bc) := by
  intro d
  induction d with
  | zero =>
      intro st p hpre hN stN hk hlt
      simp only [iterSt, Option.some.injEq] at hk
      subst hk
      have hN0 : stopped p = true := by rw [Nat.add_zero] at hN; exact hN
      rw [syncRangeGo_stopped hlt hN0]
      rfl
  | succ d ih =>
      intro st p hpre hN stN hk hlt
      simp only [iterSt] at hk
      by_cases h : st.i < endIdx
      · rw [if_pos h] at hk
        rcases hit : syncIter c vi endIdx cert st with ⟨ir, evs⟩
        rw [hit] at hk
        cases ir with
        | error e => simp at hk
        | ok st2 =>
            simp only at hk
            have hp : stopped p = false := hpre p le_rfl (by omega)
            rw [syncRangeGo_iter_ok h hp hit]
            show rcGo (syncRangeGo c vi endIdx stopped (p + 1) cert st2) = _
            refine ih st2 (p + 1) (fun k hk1 hk2 => hpre k (by omega) (by omega)) ?_ stN hk hlt
            have harith : (p + 1) + d = p + (d + 1) := by omega
            rw [harith]
            exact hN
      · rw [if_neg h] at hk
        simp at hk

/-- C7: the cancellation flag is polled exactly once per batch iteration,
before the batch fetch — in every run's trace the number of polls equals the
number of fetches, or exceeds it by exactly one (the poll of an iteration
that was interrupted before its fetch).  If the flag is first set at the
`N`-th poll of the run — whatever `N` — and `N` whole batch iterations
precede it with work still remaining, the call returns the "Interrupted"
error and the store is exactly the state left by those `N` fully-committed
batches (the original blocks plus the whole verified batches, nothing
partial); in particular a flag set at the first poll leaves the store
untouched, with a trace of just the tip query and that one poll.  And
whenever a call ends in any error the store holds exactly its previous
blocks plus whole verified batches with the last-verified watermark
unchanged. -/
theorem c7_cancellation_polls (s : Synchronizer) (a : BlocksAccess) (t : TipOfChainRes)
    (stopped : Nat → Bool) (upTo : Option Nat) (res : Except String Unit) (chain : Blocks)
    (tr : List Event)
    (ha : s.blocks_access = some a) (htip : a.query_tip = .ok t)
    (hrun : syncBlocks s stopped upTo = .returns res chain tr) :
    (countP tr = countF tr ∨ countP tr = countF tr + 1) ∧
    (∀ N stN,
      (∀ k, k < N → stopped k = false) → stopped N = true →
      iterSt a s.verification_info (min t.tip_index (upTo.getD u64Max) + 1) (certOf t upTo)
        N (stOf s.blockchain) = some stN →
      stN.i < min t.tip_index (upTo.getD u64Max) + 1 →
      res = .error "Interrupted" ∧ chain = stN.bc ∧
        ∃ tl, stN.bc.blocks = s.blockchain.blocks ++ tl) ∧
    (stopped 0 = true →
      (nextOf s.blockchain).2 ≤ min t.tip_index (upTo.getD u64Max) →
      res = .error "Interrupted" ∧ chain = s.blockchain ∧
        tr = [Event.tipQuery, Event.poll 0]) ∧
    (∀ e, res = .error e → ∃ tl, chain.blocks = s.blockchain.blocks ++ tl ∧
      chain.lastVerified = s.blockchain.lastVerified) := by
  by_cases hno : t.tip_index < (nextOf s.blockchain).2 ∨
      min t.tip_index (upTo.getD u64Max) < (nextOf s.blockchain).2
  · rw [syncBlocks_noop stopped upTo ha htip hno] at hrun
    cases hrun
    have hge : ¬ (stOf s.blockchain).i < min t.tip_index (upTo.getD u64Max) + 1 := by
      show ¬ (nextOf s.blockchain).2 < min t.tip_index (upTo.getD u64Max) + 1
      rcases hno with h | h
      · have := min_le_left t.tip_index (upTo.getD u64Max)
        omega
      · omega
    refine ⟨Or.inl rfl, ?_, ?_, ?_⟩
    · intro N stN hpre hN hk hlt
      exfalso
      cases N with
      | zero =>
          simp only [iterSt, Option.some.injEq] at hk
          rw [← hk] at hlt
          exact hge hlt
      | succ n =>
          simp only [iterSt, if_neg hge] at hk
          exact Option.noConfusion hk
    · intro _ hnext
      rcases hno with hno | hno
      · have := min_le_left t.tip_index (upTo.getD u64Max)
        omega
      · omega
    · intro e he
      cases he
  · push_neg at hno
    obtain ⟨hno1, hnext⟩ := hno
    rw [syncBlocks_loop stopped upTo ha htip hnext] at hrun
    have hst : (stOf s.blockchain).i < min t.tip_index (upTo.getD u64Max) + 1 := by
      show (nextOf s.blockchain).2 < min t.tip_index (upTo.getD u64Max) + 1
      omega
    have hcount := syncRangeGo_counts a s.verification_info
      (min t.tip_index (upTo.getD u64Max) + 1) (certOf t upTo)
      (min t.tip_index (upTo.getD u64Max) + 1 - (stOf s.blockchain).i)
      (stOf s.blockchain) stopped 0 le_rfl
    have hext := syncRangeGo_extends a s.verification_info
      (min t.tip_index (upTo.getD u64Max) + 1) (certOf t upTo)
      (min t.tip_index (upTo.getD u64Max) + 1 - (stOf s.blockchain).i)
      (stOf s.blockchain) stopped 0 le_rfl
    refine ⟨?_, ?_, ?_, ?_⟩
    · cases hres : (syncRangeGo a s.verification_info
          (min t.tip_index (upTo.getD u64Max) + 1) stopped 0 (certOf t upTo)
          (stOf s.blockchain)).1 with
      | error e =>
          rw [postProcess_err hres] at hrun
          cases hrun
          simp only [countP_cons_tip, countF_cons_tip]
          exact hcount
      | ok v =>
          cases hlast : (syncRangeGo a s.verification_info
              (min t.tip_index (upTo.getD u64Max) + 1) stopped 0 (certOf t upTo)
              (stOf s.blockchain)).2.1.last with
          | none =>
              have hpp : postProcess s.store_max_blocks (syncRangeGo a s.verification_info
                  (min t.tip_index (upTo.getD u64Max) + 1) stopped 0 (certOf t upTo)
                  (stOf s.blockchain)) = .panics := by
                simp only [postProcess, hres, hlast]
              rw [hpp] at hrun
              cases hrun
          | some b =>
              rw [postProcess_ok_val hres hlast] at hrun
              cases hrun
              simp only [countP_cons_tip, countF_cons_tip]
              exact hcount
    · intro N stN hpre hN hk hlt
      have hr := stop_at_poll a s.verification_info
        (min t.tip_index (upTo.getD u64Max) + 1) (certOf t upTo) stopped N
        (stOf s.blockchain) 0 (fun k _ hk2 => hpre k (by omega)) (by
          have : (0 : Nat) + N = N := Nat.zero_add N
          rw [this]
          exact hN) stN hk hlt
      simp only [rcGo, Prod.mk.injEq] at hr
      obtain ⟨hres, hbc⟩ := hr
      rw [postProcess_err hres] at hrun
      cases hrun
      exact ⟨rfl, hbc, iterSt_extends a s.verification_info
        (min t.tip_index (upTo.getD u64Max) + 1) (certOf t upTo) N
        (stOf s.blockchain) stN hk⟩
    · intro hs0 _
      have hr : syncRangeGo a s.verification_info
          (min t.tip_index (upTo.getD u64Max) + 1) stopped 0 (certOf t upTo)
          (stOf s.blockchain) =
          (.error "Interrupted", (stOf s.blockchain).bc, [.poll 0]) :=
        syncRangeGo_stopped hst hs0
      rw [hr] at hrun
      have hpp : postProcess s.store_max_blocks
          ((.error "Interrupted", (stOf s.blockchain).bc, [Event.poll 0]) :
            Except String Unit × Blocks × List Event) =
          .returns (.error "Interrupted") s.blockchain [Event.tipQuery, Event.poll 0] := rfl
      rw [hpp] at hrun
      cases hrun
      exact ⟨rfl, rfl, rfl⟩
    · intro e he
      cases hres : (syncRangeGo a s.verification_info
          (min t.tip_index (upTo.getD u64Max) + 1) stopped 0 (certOf t upTo)
          (stOf s.blockchain)).1 with
      | error e2 =>
          rw [postProcess_err hres] at hrun
          cases hrun
          obtain ⟨⟨tl, htl⟩, hlv⟩ := hext
          exact ⟨tl, htl, hlv e2 hres⟩
      | ok v =>
          cases hlast : (syncRangeGo a s.verification_info
              (min t.tip_index (upTo.getD u64Max) + 1) stopped 0 (certOf t upTo)
              (stOf s.blockchain)).2.1.last with
          | none =>
              have hpp : postProcess s.store_max_blocks (syncRangeGo a s.verification_info
                  (min t.tip_index (upTo.getD u64Max) + 1) stopped 0 (certOf t upTo)
                  (stOf s.blockchain)) = .panics := by
                simp only [postProcess, hres, hlast]
              rw [hpp] at hrun
              cases hrun
          | some b =>
              rw [postProcess_ok_val hres hlast] at hrun
              cases hrun
              cases he

def caC7 : BlocksAccess :=
  { query_raw_block := fun n => .ok (([eb0, eb1]).get? n),
    query_tip := .ok { tip_index := 1, certification := none },
    multi_query_blocks := fun lo _ => .ok ((([eb0, eb1]).drop lo).take 1) }

def sC7 : Synchronizer :=
  { blockchain := emptyChain, blocks_access := some caC7,
    store_max_blocks := none, verification_info := none }

theorem c7_witness_run :
    syncBlocks sC7 (stopAt 1) none =
      .returns (.error "Interrupted") { blocks := [hb0], lastVerified := none }
        [Event.tipQuery, Event.poll 0, Event.fetch 0 2, Event.poll 1] := by
  rw [syncBlocks_loop (stopAt 1) none rfl rfl (by decide)]
  have h1 : (stOf sC7.blockchain).i <
      min (1 : Nat) ((none : Option Nat).getD u64Max) + 1 := by decide
  have hit : syncIter caC7 sC7.verification_info
      (min (1 : Nat) ((none : Option Nat).getD u64Max) + 1)
      (certOf { tip_index := 1, certification := none } none) (stOf sC7.blockchain) =
      (.ok { i := 1, lh := some 1, bc := { blocks := [hb0], lastVerified := none } },
       [Event.fetch 0 2]) := rfl
  rw [syncRangeGo_iter_ok h1 rfl hit]
  have hstop := @syncRangeGo_stopped caC7 sC7.verification_info
    (min (1 : Nat) ((none : Option Nat).getD u64Max) + 1) (stopAt 1) 1
    (certOf { tip_index := 1, certification := none } none)
    { i := 1, lh := some 1, bc := { blocks := [hb0], lastVerified := none } }
    (by decide) rfl
  rw [hstop]
  rfl

theorem c7_witness :
    (.error "Interrupted" : Except String Unit) = .error "Interrupted" ∧
    ({ blocks := [hb0], lastVerified := none } : Blocks) =
      ({ blocks := [hb0], lastVerified := none } : Blocks) ∧
    ∃ tl, ([hb0] : List HashedBlock) = emptyChain.blocks ++ tl :=
  (c7_cancellation_polls sC7 caC7 { tip_index := 1, certification := none } (stopAt 1) none
      (.error "Interrupted") { blocks := [hb0], lastVerified := none }
      [Event.tipQuery, Event.poll 0, Event.fetch 0 2, Event.poll 1] rfl rfl
      c7_witness_run).2.1
    1 { i := 1, lh := some 1, bc := { blocks := [hb0], lastVerified := none } }
    (by
      intro k hk
      have hk0 : k = 0 := Nat.lt_one_iff.mp hk
      subst hk0
      rfl)
    rfl rfl (by decide)

theorem blocks_getLast?_some {l : List HashedBlock} (h : l ≠ []) :
    ∃ x, l.getLast? = some x := by
  cases l with
  | nil => exact absurd rfl h
  | cons c r => exact cons_getLast?_some r c

theorem c9_resume_mid (s : Synchronizer) (a : BlocksAccess) (t : TipOfChainRes)
    (upTo : Option Nat) (stX : LoopSt)
    (ha : s.blocks_access = some a) (htip : a.query_tip = .ok t)
    (hStX : StInv stX) (hXlt : stX.i < min t.tip_index (upTo.getD u64Max) + 1) :
    syncBlocks { s with blockchain := stX.bc } neverStop upTo =
      postProcess s.store_max_blocks
        (syncRangeGo a s.verification_info (min t.tip_index (upTo.getD u64Max) + 1)
          neverStop 0 (certOf t upTo) stX) := by
  have hnext2 : (nextOf stX.bc).2 ≤ min t.tip_index (upTo.getD u64Max) := by
    unfold StInv at hStX
    rw [hStX]
    omega
  have h := syncBlocks_loop (s := { s with blockchain := stX.bc }) neverStop upTo ha htip
    hnext2
  rw [h]
  have hstof : stOf stX.bc = stX := by
    unfold stOf
    rw [hStX]
  show postProcess s.store_max_blocks
      (syncRangeGo a s.verification_info (min t.tip_index (upTo.getD u64Max) + 1)
        neverStop 0 (certOf t upTo) (stOf stX.bc)) = _
  rw [hstof]

theorem c9_resume_done (s : Synchronizer) (a : BlocksAccess) (t : TipOfChainRes)
    (upTo : Option Nat) (bLast : HashedBlock) (bc1 : Blocks)
    (ha : s.blocks_access = some a) (htip : a.query_tip = .ok t)
    (hlast : bc1.blocks.getLast? = some bLast)
    (hidx : bLast.index + 1 = min t.tip_index (upTo.getD u64Max) + 1) :
    syncBlocks { s with blockchain := bc1 } neverStop upTo =
      .returns (.ok ()) bc1 [Event.tipQuery] := by
  have hnoop : t.tip_index < (nextOf bc1).2 ∨
      min t.tip_index (upTo.getD u64Max) < (nextOf bc1).2 := by
    right
    rw [nextOf_getLast hlast]
    omega
  exact syncBlocks_noop neverStop upTo ha htip hnoop

theorem c9_done_facts (stX : LoopSt) (E : Nat) (hStX : StInv stX) (hiE : stX.i = E)
    (hE1 : 1 ≤ E) :
    ∃ bLast, stX.bc.blocks.getLast? = some bLast ∧ bLast.index + 1 = E := by
  have hne : stX.bc.blocks ≠ [] := by
    intro h0
    unfold StInv at hStX
    rw [nextOf_nil h0] at hStX
    simp only [Prod.mk.injEq] at hStX
    omega
  obtain ⟨b, hb⟩ := blocks_getLast?_some hne
  have hgl := nextOf_getLast hb
  unfold StInv at hStX
  rw [hgl] at hStX
  simp only [Prod.mk.injEq] at hStX
  exact ⟨b, hb, by omega⟩

/-- C9: resumability of an interrupted sync.  Run `sync_blocks` once with a
cancellation schedule that raises the flag at the `N`-th poll (so the call is
interrupted after `N` whole batches, or finishes first), take the store it
leaves behind, and run `sync_blocks` again with the flag never set: the
second run's result and final store (blocks, heights and last-verified
watermark alike) are exactly those of a single uninterrupted sync from the
original store.  Assumes the remote serves fixed answers obeying the §6 batch
contract, and a retention maximum of at least one block when pruning is
configured. -/
theorem c9_interrupt_resume (s : Synchronizer) (a : BlocksAccess) (upTo : Option Nat)
    (N : Nat) (res1 : Except String Unit) (chain1 : Blocks) (tr1 : List Event)
    (ha : s.blocks_access = some a)
    (hcontract : BatchContract a)
    (hmax : ∀ m, s.store_max_blocks = some m → 1 ≤ m)
    (hrun1 : syncBlocks s (stopAt N) upTo = .returns res1 chain1 tr1) :
    (syncBlocks { s with blockchain := chain1 } neverStop upTo).rc =
      (syncBlocks s neverStop upTo).rc := by
  cases htip : a.query_tip with
  | error e =>
      rw [syncBlocks_tip_err (stopAt N) upTo ha htip] at hrun1
      cases hrun1
      rfl
  | ok t =>
      by_cases hno : t.tip_index < (nextOf s.blockchain).2 ∨
          min t.tip_index (upTo.getD u64Max) < (nextOf s.blockchain).2
      · rw [syncBlocks_noop (stopAt N) upTo ha htip hno] at hrun1
        cases hrun1
        rfl
      · push_neg at hno
        obtain ⟨hno1, hnext⟩ := hno
        rw [syncBlocks_loop (stopAt N) upTo ha htip hnext] at hrun1
        have hE1 : 1 ≤ min t.tip_index (upTo.getD u64Max) + 1 := by omega
        have hst0lt : (stOf s.blockchain).i < min t.tip_index (upTo.getD u64Max) + 1 := by
          show (nextOf s.blockchain).2 < min t.tip_index (upTo.getD u64Max) + 1
          omega
        have hchar := run1char a s.verification_info
          (min t.tip_index (upTo.getD u64Max) + 1) (certOf t upTo) N (stOf s.blockchain) 0
        rw [Nat.zero_add] at hchar
        cases hiter : iterSt a s.verification_info
            (min t.tip_index (upTo.getD u64Max) + 1) (certOf t upTo) N
            (stOf s.blockchain) with
        | some stN =>
            rw [hiter] at hchar
            have hStN : StInv stN := iterSt_StInv a s.verification_info
              (min t.tip_index (upTo.getD u64Max) + 1) (certOf t upTo) N
              (stOf s.blockchain) stN (StInv_stOf s.blockchain) hiter
            have hchar2 : rcGo (syncRangeGo a s.verification_info
                (min t.tip_index (upTo.getD u64Max) + 1) (stopAt N) 0 (certOf t upTo)
                (stOf s.blockchain)) =
                if stN.i < min t.tip_index (upTo.getD u64Max) + 1 then
                  ((.error "Interrupted" : Except String Unit), stN.bc)
                else ((.ok () : Except String Unit),
                  stN.bc.mark_last_verified (min t.tip_index (upTo.getD u64Max) + 1 - 1)) :=
              hchar
            by_cases hNlt : stN.i < min t.tip_index (upTo.getD u64Max) + 1
            · -- interrupted mid-range
              rw [if_pos hNlt] at hchar2
              simp only [rcGo, Prod.mk.injEq] at hchar2
              obtain ⟨hres1, hbc1⟩ := hchar2
              rw [postProcess_err hres1] at hrun1
              cases hrun1
              rw [hbc1]
              rw [c9_resume_mid s a t upTo stN ha htip hStN hNlt]
              rw [syncBlocks_loop (s := s) neverStop upTo ha htip hnext]
              exact postProcess_rc (ffrun_iter a s.verification_info
                (min t.tip_index (upTo.getD u64Max) + 1) (certOf t upTo) N
                (stOf s.blockchain) stN hiter).symm
            · -- the flag was raised only after the sync had completed
              rw [if_neg hNlt] at hchar2
              simp only [rcGo, Prod.mk.injEq] at hchar2
              obtain ⟨hres1, hbc1⟩ := hchar2
              have hiE : stN.i = min t.tip_index (upTo.getD u64Max) + 1 :=
                le_antisymm
                  (iterSt_le a s.verification_info
                    (min t.tip_index (upTo.getD u64Max) + 1) (certOf t upTo) hcontract N
                    (stOf s.blockchain) stN (le_of_lt hst0lt) hiter)
                  (not_lt.mp hNlt)
              obtain ⟨bLast, hbLast, hbidx⟩ := c9_done_facts stN
                (min t.tip_index (upTo.getD u64Max) + 1) hStN hiE hE1
              have hlastm : ((syncRangeGo a s.verification_info
                  (min t.tip_index (upTo.getD u64Max) + 1) (stopAt N) 0 (certOf t upTo)
                  (stOf s.blockchain)).2.1).last = some bLast := by
                show ((syncRangeGo a s.verification_info
                  (min t.tip_index (upTo.getD u64Max) + 1) (stopAt N) 0 (certOf t upTo)
                  (stOf s.blockchain)).2.1).blocks.getLast? = some bLast
                rw [hbc1, mark_blocks]
                exact hbLast
              rw [postProcess_ok_val hres1 hlastm] at hrun1
              cases hrun1
              rw [hbc1]
              have hkeep := try_prune_keeps
                (stN.bc.mark_last_verified (min t.tip_index (upTo.getD u64Max) + 1 - 1))
                s.store_max_blocks PRUNE_DELAY hmax
              have hlastF : (((stN.bc.mark_last_verified
                  (min t.tip_index (upTo.getD u64Max) + 1 - 1)).try_prune
                  s.store_max_blocks PRUNE_DELAY)).blocks.getLast? = some bLast := by
                rw [hkeep.1, mark_blocks]
                exact hbLast
              rw [c9_resume_done s a t upTo bLast _ ha htip hlastF hbidx]
              rw [syncBlocks_loop (s := s) neverStop upTo ha htip hnext]
              have h0 : rcGo (syncRangeGo a s.verification_info
                  (min t.tip_index (upTo.getD u64Max) + 1) neverStop 0 (certOf t upTo)
                  (stOf s.blockchain)) =
                  (.ok (), stN.bc.mark_last_verified
                    (min t.tip_index (upTo.getD u64Max) + 1 - 1)) := by
                rw [ffrun_iter a s.verification_info
                  (min t.tip_index (upTo.getD u64Max) + 1) (certOf t upTo) N
                  (stOf s.blockchain) stN hiter]
                rw [syncRangeGo_done hNlt]
                rfl
              simp only [rcGo, Prod.mk.injEq] at h0
              obtain ⟨hres0, hbc0⟩ := h0
              have hlast0 : ((syncRangeGo a s.verification_info
                  (min t.tip_index (upTo.getD u64Max) + 1) neverStop 0 (certOf t upTo)
                  (stOf s.blockchain)).2.1).last = some bLast := by
                show ((syncRangeGo a s.verification_info
                  (min t.tip_index (upTo.getD u64Max) + 1) neverStop 0 (certOf t upTo)
                  (stOf s.blockchain)).2.1).blocks.getLast? = some bLast
                rw [hbc0, mark_blocks]
                exact hbLast
              rw [postProcess_ok_val hres0 hlast0]
              rw [hbc0]
              rfl
        | none =>
            rw [hiter] at hchar
            have hchar2 : rcGo (syncRangeGo a s.verification_info
                (min t.tip_index (upTo.getD u64Max) + 1) (stopAt N) 0 (certOf t upTo)
                (stOf s.blockchain)) =
                rcGo (syncRangeGo a s.verification_info
                  (min t.tip_index (upTo.getD u64Max) + 1) neverStop 0 (certOf t upTo)
                  (stOf s.blockchain)) := hchar
            rcases ffrun_cases a s.verification_info
                (min t.tip_index (upTo.getD u64Max) + 1) (certOf t upTo)
                (min t.tip_index (upTo.getD u64Max) + 1 - (stOf s.blockchain).i)
                (stOf s.blockchain) le_rfl with
              ⟨k, stF, hkF, hFge, hrcF⟩ | ⟨k, stK, e, evs, hkK, hKlt, hitK, hrcK⟩
            · -- the never-stopped run finishes; the flagged run finished first
              have hStF : StInv stF := iterSt_StInv a s.verification_info
                (min t.tip_index (upTo.getD u64Max) + 1) (certOf t upTo) k
                (stOf s.blockchain) stF (StInv_stOf s.blockchain) hkF
              have hiE : stF.i = min t.tip_index (upTo.getD u64Max) + 1 :=
                le_antisymm
                  (iterSt_le a s.verification_info
                    (min t.tip_index (upTo.getD u64Max) + 1) (certOf t upTo) hcontract k
                    (stOf s.blockchain) stF (le_of_lt hst0lt) hkF)
                  (not_lt.mp hFge)
              obtain ⟨bLast, hbLast, hbidx⟩ := c9_done_facts stF
                (min t.tip_index (upTo.getD u64Max) + 1) hStF hiE hE1
              rw [hrcF] at hchar2
              simp only [rcGo, Prod.mk.injEq] at hchar2
              obtain ⟨hres1, hbc1⟩ := hchar2
              have hlastm : ((syncRangeGo a s.verification_info
                  (min t.tip_index (upTo.getD u64Max) + 1) (stopAt N) 0 (certOf t upTo)
                  (stOf s.blockchain)).2.1).last = some bLast := by
                show ((syncRangeGo a s.verification_info
                  (min t.tip_index (upTo.getD u64Max) + 1) (stopAt N) 0 (certOf t upTo)
                  (stOf s.blockchain)).2.1).blocks.getLast? = some bLast
                rw [hbc1, mark_blocks]
                exact hbLast
              rw [postProcess_ok_val hres1 hlastm] at hrun1
              cases hrun1
              rw [hbc1]
              have hkeep := try_prune_keeps
                (stF.bc.mark_last_verified (min t.tip_index (upTo.getD u64Max) + 1 - 1))
                s.store_max_blocks PRUNE_DELAY hmax
              have hlastF : (((stF.bc.mark_last_verified
                  (min t.tip_index (upTo.getD u64Max) + 1 - 1)).try_prune
                  s.store_max_blocks PRUNE_DELAY)).blocks.getLast? = some bLast := by
                rw [hkeep.1, mark_blocks]
                exact hbLast
              rw [c9_resume_done s a t upTo bLast _ ha htip hlastF hbidx]
              rw [syncBlocks_loop (s := s) neverStop upTo ha htip hnext]
              simp only [rcGo, Prod.mk.injEq] at hrcF
              obtain ⟨hres0, hbc0⟩ := hrcF
              have hlast0 : ((syncRangeGo a s.verification_info
                  (min t.tip_index (upTo.getD u64Max) + 1) neverStop 0 (certOf t upTo)
                  (stOf s.blockchain)).2.1).last = some bLast := by
                show ((syncRangeGo a s.verification_info
                  (min t.tip_index (upTo.getD u64Max) + 1) neverStop 0 (certOf t upTo)
                  (stOf s.blockchain)).2.1).blocks.getLast? = some bLast
                rw [hbc0, mark_blocks]
                exact hbLast
              rw [postProcess_ok_val hres0 hlast0]
              rw [hbc0]
              rfl
            · -- the never-stopped run fails; the flagged run hit the same failure
              have hStK : StInv stK := iterSt_StInv a s.verification_info
                (min t.tip_index (upTo.getD u64Max) + 1) (certOf t upTo) k
                (stOf s.blockchain) stK (StInv_stOf s.blockchain) hkK
              rw [hrcK] at hchar2
              simp only [rcGo, Prod.mk.injEq] at hchar2
              obtain ⟨hres1, hbc1⟩ := hchar2
              rw [postProcess_err hres1] at hrun1
              cases hrun1
              rw [hbc1]
              rw [c9_resume_mid s a t upTo stK ha htip hStK hKlt]
              rw [syncBlocks_loop (s := s) neverStop upTo ha htip hnext]
              refine postProcess_rc ?_
              rw [syncRangeGo_iter_err hKlt rfl hitK]
              rw [rcGo_mk]
              exact hrcK.symm

theorem caTwo_contract : BatchContract caTwo := by
  intro lo hi batch h
  simp only [caTwo] at h
  injection h with h
  rw [← h, List.length_take]
  exact min_le_left _ _

theorem c9_witness_run :
    syncBlocks sTwo (stopAt 0) none =
      .returns (.error "Interrupted") emptyChain [Event.tipQuery, Event.poll 0] := by
  rw [syncBlocks_loop (stopAt 0) none rfl rfl (by decide)]
  rw [syncRangeGo_stopped (by decide) rfl]
  rfl

theorem c9_witness :
    (syncBlocks { sTwo with blockchain := emptyChain } neverStop none).rc =
      (syncBlocks sTwo neverStop none).rc :=
  c9_interrupt_resume sTwo caTwo none 0 (.error "Interrupted") emptyChain
    [Event.tipQuery, Event.poll 0] rfl caTwo_contract
    (by intro m h; exact Option.noConfusion h) c9_witness_run
